import Mathlib

/-!
# Verification of the Yasno outage timeline resolution engine

This file is a shallow embedding of `custom_components/yasno_outages/api.py`
(class `YasnoOutagesApi`): the priority-based scanline merge that reconciles a
recurring weekly outage table with date-specific exception days and answers
range queries with a flat list of outage events.

Modelling conventions:

* Timestamps are integers counting minutes since 0001-01-01T00:00 (proleptic
  Gregorian, the calendar `datetime.date` uses); day 0 is a Monday, exactly as
  `datetime.date(1, 1, 1).weekday() == 0`.  Slot boundaries (`start`/`end`
  fields of the JSON events, hours in the source) are modelled in minutes, so
  hour `h` of the source is minute `60*h` here and the end-of-day sentinel 24
  is 1440.  Sub-minute precision is irrelevant: `_build_event_hour` zeroes
  seconds and microseconds.
* Python exceptions (`KeyError` from missing city/group keys, `ValueError`
  from `datetime.replace` on invalid components, `TypeError` from comparing
  `None`) are modelled by `Except PyErr`.  Generators that can raise while
  being consumed lazily are modelled as the list of elements produced before
  the exception together with an optional terminal error.
* The weekly generator `gen_schedule_recurrent_events` is infinite; it is
  modelled with an explicit `fuel` counting how many days of the schedule are
  replayed.  A run of `gen_events` that stops via its own `return` (because
  the cursor passed `end_date`) is unaffected by edges beyond that point, so
  results of halted runs agree with the Python semantics for any sufficient
  fuel.
-/

namespace Yasno

/-- Python exceptions that the engine can raise: `KeyError` (missing dict
key, and the `del new_last["end"]` on a dict without that key),
`ValueError` (`datetime.replace` with invalid fields or an out-of-range
hour), `TypeError` (ordering comparison against `None`). -/
inductive PyErr where
  | keyError
  | valueError
  | typeError
deriving DecidableEq, Repr

/-- A schedule slot, one JSON event `{"start": h1, "end": h2, "type": t}`.
`start`/`stop` are minutes since local midnight (the source stores hours,
possibly fractional; minutes are exact for the data's half-hour grid). -/
structure Slot where
  start : Int
  stop : Int
  type : String
deriving DecidableEq, Repr

/-- Edge action: the `"action"` field, `"open"` or `"close"`. -/
inductive EAction where
  | aopen
  | aclose
deriving DecidableEq, Repr

/-- An edge of the scanline: the dict
`{"at": ts, "priority": p, "action": a, "type": t}` produced by the two
sources.  `time` is the `"at"` timestamp in minutes. -/
structure Edge where
  time : Int
  priority : Nat
  action : EAction
  type : String
deriving DecidableEq, Repr

/-- A stack cell of the merge: the dict `{"summary": s, "start": t}` with an
optional `"end"` key (`stop = none` means the `"end"` key is absent, i.e. the
interval is still open). -/
structure Entry where
  summary : String
  start : Int
  stop : Option Int
deriving DecidableEq, Repr

/-- An output event `{"summary": s, "start": a, "end": b}` as yielded by
`gen_events` (`stop` is the `"end"` key). -/
structure OutageEvent where
  summary : String
  start : Int
  stop : Int
deriving DecidableEq, Repr

/-- One raw exception record of `dailySchedule[city]`: a title string with an
embedded `D.M.Y` date and the per-group override slots. -/
structure ExRecord where
  title : String
  groups : List (String × List Slot)
deriving DecidableEq, Repr

/-- The state of a `YasnoOutagesApi` object: configured city and group and the
two fetched data sets.  `schedule` is `self.schedule`
(`city -> group_name -> list of per-weekday slot lists`), `daily` is
`self.daily_schedule` (`city -> key -> record`); dicts are modelled as
association lists in insertion order with distinct keys. -/
structure YasnoOutagesApi where
  city : Option String
  group : Option String
  schedule : Option (List (String × List (String × List (List Slot))))
  daily : Option (List (String × List (String × ExRecord)))
deriving Repr

/-- Lookup in an association list modelling a Python dict (keys distinct). -/
def assocGet {β : Type} (k : String) : List (String × β) → Option β
  | [] => none
  | (a, b) :: r => if a = k then some b else assocGet k r

/-- Python truthiness of an optional string (`None` and `""` are falsy). -/
def truthyStr : Option String → Bool
  | none => false
  | some s => !(s = "")

/-- Python truthiness of an optional container (`None` and empty are falsy). -/
def truthyList {α : Type} : Option (List α) → Bool
  | none => false
  | some l => !l.isEmpty

/-- `get_group_schedule` composed with `get_city_groups`: the configured
group's list of per-weekday slot lists, `[]` when anything is missing.  When
`self.schedule` is falsy, `get_city_groups` either returns `{}` or a dict
whose values are empty dicts built from `daily_schedule`, so
`gen_schedule_recurrent_events`'s `if not group_schedule` guard sees a falsy
value in every such case; that is collapsed to `[]` here. -/
def getGroupSchedule (api : YasnoOutagesApi) : List (List Slot) :=
  match api.schedule with
  | none => []
  | some sch =>
    if sch.isEmpty then []
    else
      match api.city with
      | none => []
      | some c =>
        match assocGet c sch with
        | none => []
        | some groups =>
          match api.group with
          | none => []
          | some g => (assocGet (String.append "group_" g) groups).getD []

/-! ## Calendar arithmetic (`datetime.date`, proleptic Gregorian) -/

/-- Gregorian leap year, as `calendar.isleap`. -/
def isLeap (y : Nat) : Bool :=
  y % 4 = 0 && (!(y % 100 = 0) || y % 400 = 0)

/-- Length of month `m` (1-12) of year `y`. -/
def daysInMonth (y m : Nat) : Nat :=
  if m = 2 then (if isLeap y then 29 else 28)
  else if m = 4 ∨ m = 6 ∨ m = 9 ∨ m = 11 then 30
  else 31

/-- Days in year `y` strictly before month `m`. -/
def daysBeforeMonth (y m : Nat) : Nat :=
  (List.range (m - 1)).foldl (fun a i => a + daysInMonth y (i + 1)) 0

/-- Day number of a Gregorian date, day 0 = 0001-01-01 (a Monday); this is
`date(y, m, d).toordinal() - 1`. -/
def daysFromCivil (y m d : Nat) : Nat :=
  365 * (y - 1) + (y - 1) / 4 + (y - 1) / 400 - (y - 1) / 100
    + daysBeforeMonth y m + (d - 1)

/-- Validity of the fields for `datetime.replace(year, month, day)`:
`MINYEAR = 1`, `MAXYEAR = 9999`, month 1-12, day within the month. -/
def validYMD (y m d : Nat) : Bool :=
  1 ≤ y && y ≤ 9999 && 1 ≤ m && m ≤ 12 && 1 ≤ d && d ≤ daysInMonth y m

/-! ## Date extraction from exception titles

`re.search(r"(\d+)\.(\d+)\.(\d+)", title)`: the earliest position where a
digit run, a dot, a digit run, a dot and a digit run match.  Greedy `\d+`
followed by a literal dot is equivalent to a maximal digit run (a shorter
run would end before a digit, never before the required dot), so no
backtracking is modelled.  `\d` is modelled as ASCII `0-9` (the titles'
dates use ASCII digits). -/

/-- Numeric value of a digit run, as Python `int` on the matched group. -/
def digitsToNat (cs : List Char) : Nat :=
  cs.foldl (fun a c => 10 * a + (c.toNat - 48)) 0

/-- Attempt to match `(\d+)\.(\d+)\.(\d+)` anchored at this position;
returns the three groups `(d, m, y)` as numbers. -/
def tryDate (cs : List Char) : Option (Nat × Nat × Nat) :=
  match List.span Char.isDigit cs with
  | (d1, rest1) =>
    if d1.isEmpty then none
    else
      match rest1 with
      | '.' :: rest2 =>
        match List.span Char.isDigit rest2 with
        | (d2, rest3) =>
          if d2.isEmpty then none
          else
            match rest3 with
            | '.' :: rest4 =>
              match List.span Char.isDigit rest4 with
              | (d3, _) =>
                if d3.isEmpty then none
                else some (digitsToNat d1, digitsToNat d2, digitsToNat d3)
            | _ => none
      | _ => none

/-- Leftmost match of the date pattern over the character list. -/
def searchDateAux : List Char → Option (Nat × Nat × Nat)
  | [] => none
  | c :: cs =>
    match tryDate (c :: cs) with
    | some t => some t
    | none => searchDateAux cs

/-- `re.search(r"(\d+)\.(\d+)\.(\d+)", s)`, groups as `(day, month, year)`. -/
def searchDate (s : String) : Option (Nat × Nat × Nat) :=
  searchDateAux s.toList

/-! ## Edge generation -/

/-- `_build_event_hour(date, h)` in minutes: hour 24 (minute 1440) means
midnight of the next day; otherwise the hour/minute of the day are replaced
(the date's own time of day is discarded); out-of-range hours make
`datetime.replace` raise `ValueError`. -/
def buildEventHour (dt : Int) (m : Int) : Except PyErr Int :=
  if m = 1440 then .ok (1440 * (dt / 1440) + 1440)
  else if 0 ≤ m ∧ m < 1440 then .ok (1440 * (dt / 1440) + m)
  else .error .valueError

/-- `gen_event(base_date, event, priority)`: the open edge, then the close
edge; each timestamp is computed when its edge is yielded, so a bad `end`
still yields the open edge before raising. -/
def genSlotEdges (p : Nat) (dt : Int) (s : Slot) : List Edge × Option PyErr :=
  match buildEventHour dt s.start with
  | .error e => ([], some e)
  | .ok a1 =>
    match buildEventHour dt s.stop with
    | .error e => ([⟨a1, p, .aopen, s.type⟩], some e)
    | .ok a2 => ([⟨a1, p, .aopen, s.type⟩, ⟨a2, p, .aclose, s.type⟩], none)

/-- All edges of a list of slots on one day, stopping at the first error. -/
def genSlotsEdges (p : Nat) (dt : Int) : List Slot → List Edge × Option PyErr
  | [] => ([], none)
  | s :: rest =>
    match genSlotEdges p dt s with
    | (es, some e) => (es, some e)
    | (es, none) =>
      match genSlotsEdges p dt rest with
      | (es2, err) => (es ++ es2, err)

/-- The body of `gen_schedule_recurrent_events`'s infinite loop, bounded to
`fuel` days: day `i` (starting at the Monday anchor) replays entry
`i % len(schedule)` of the group's per-weekday lists at priority 1. -/
def genWeekDaysAux (gs : List (List Slot)) (anchor : Int) :
    Nat → Nat → List Edge × Option PyErr
  | _, 0 => ([], none)
  | i, n + 1 =>
    match genSlotsEdges 1 (anchor + 1440 * (i : Int)) (gs.getD (i % gs.length) []) with
    | (es, some e) => (es, some e)
    | (es, none) =>
      match genWeekDaysAux gs anchor (i + 1) n with
      | (es2, err) => (es ++ es2, err)

/-- The Monday-aligned midnight anchor `gen_schedule_recurrent_events`
derives from its `start_date`:
`start_date.replace(h=0,m=0,s=0,us=0) - timedelta(days=start_date.weekday())`
in minutes, with day numbers floor-divided and weekdays `Monday = 0`. -/
def anchorOf (t : Int) : Int :=
  1440 * (t / 1440 - t / 1440 % 7)

/-- `gen_schedule_recurrent_events(start_date)` truncated to `fuel` days:
nothing when city or group is falsy or the group's table is missing/empty;
otherwise weekly slots replayed from the Monday-aligned midnight of
`start_date`'s week. -/
def genScheduleRecurrentEvents (api : YasnoOutagesApi) (startD : Int)
    (fuel : Nat) : List Edge × Option PyErr :=
  if !truthyStr api.city || !truthyStr api.group then ([], none)
  else
    match getGroupSchedule api with
    | [] => ([], none)
    | gs => genWeekDaysAux gs (anchorOf startD) 0 fuel

/-- Edges of one exception record: parse the title's date (skip the record if
there is no match, `ValueError` if the matched date is invalid for
`datetime.replace`), then the priority-2 day-open with label `"none"`, the
priority-3 slots of the configured group (`KeyError` when absent — note the
day-open edge has already been yielded), then the priority-2 day-close at the
next midnight. -/
def genRecordEdges (group : Option String) (baseD : Int) (r : ExRecord) :
    List Edge × Option PyErr :=
  match searchDate r.title with
  | none => ([], none)
  | some (d, m, y) =>
    if !validYMD y m d then ([], some .valueError)
    else
      let dayDt : Int := 1440 * (daysFromCivil y m d : Int) + baseD % 1440
      match buildEventHour dayDt 0 with
      | .error e => ([], some e)
      | .ok mid =>
        let e1 : Edge := ⟨mid, 2, .aopen, "none"⟩
        match group with
        | none => ([e1], some .keyError)
        | some g =>
          match assocGet g r.groups with
          | none => ([e1], some .keyError)
          | some slots =>
            match genSlotsEdges 3 dayDt slots with
            | (es, some e) => (e1 :: es, some e)
            | (es, none) =>
              match buildEventHour dayDt 1440 with
              | .error e => (e1 :: es, some e)
              | .ok mid2 => (e1 :: (es ++ [⟨mid2, 2, .aclose, "none"⟩]), none)

/-- Edges of a list of exception records, stopping at the first error. -/
def genRecordsEdges (group : Option String) (baseD : Int) :
    List ExRecord → List Edge × Option PyErr
  | [] => ([], none)
  | r :: rest =>
    match genRecordEdges group baseD r with
    | (es, some e) => (es, some e)
    | (es, none) =>
      match genRecordsEdges group baseD rest with
      | (es2, err) => (es ++ es2, err)

/-- `gen_exception_events(base_date)`: nothing when `daily_schedule is None`;
`KeyError` when the configured city (possibly `None`) is not a key of it;
otherwise the records of that city in insertion order. -/
def genExceptionEvents (api : YasnoOutagesApi) (baseD : Int) :
    List Edge × Option PyErr :=
  match api.daily with
  | none => ([], none)
  | some d =>
    match api.city with
    | none => ([], some .keyError)
    | some c =>
      match assocGet c d with
      | none => ([], some .keyError)
      | some recs => genRecordsEdges api.group baseD (recs.map (·.2))

/-! ## The two-way lazy merge (`heapq.merge`) -/

/-- The sort key of `gen_events`'s merge:
`(at, priority if action == "close" else -priority)`. -/
def edgeKey (e : Edge) : Int × Int :=
  (e.time, match e.action with
           | .aclose => (e.priority : Int)
           | .aopen => -(e.priority : Int))

/-- Lexicographic `≤` on keys; on equal keys `heapq.merge` prefers the
earlier-listed stream. -/
def keyLE (a b : Int × Int) : Bool :=
  a.1 < b.1 || (a.1 = b.1 && a.2 ≤ b.2)

/-- `heapq.merge(recurrent, exceptions, key=...)` where each stream is a list
of produced elements plus an optional terminal exception.  The merge pulls
one pending element per stream; a stream's exception surfaces exactly when
its next element is pulled: immediately after its last produced element is
emitted (or on the first pull if it produced nothing), discarding whatever
the other stream still holds.

`merge2Aux` is the recursion with an explicit structural fuel; each
two-sided step consumes one list element and one unit of fuel, so with fuel
`xs.length + ys.length` (as `merge2` passes) the fuel never runs out. -/
def merge2Aux : Nat → List Edge → Option PyErr → List Edge → Option PyErr →
    List Edge × Option PyErr
  | _, [], none, ys, yerr => (ys, yerr)
  | _, [], some e, _, _ => ([], some e)
  | _, _ :: _, _, [], some e => ([], some e)
  | _, x :: xs, xerr, [], none => (x :: xs, xerr)
  | 0, _ :: _, _, _ :: _, _ => ([], none)
  | n + 1, x :: xs, xerr, y :: ys, yerr =>
    if keyLE (edgeKey x) (edgeKey y) then
      match merge2Aux n xs xerr (y :: ys) yerr with
      | (r, err) => (x :: r, err)
    else
      match merge2Aux n (x :: xs) xerr ys yerr with
      | (r, err) => (y :: r, err)

def merge2 (xs : List Edge) (xerr : Option PyErr) (ys : List Edge)
    (yerr : Option PyErr) : List Edge × Option PyErr :=
  merge2Aux (xs.length + ys.length) xs xerr ys yerr

/-! ## The scanline machine (`gen_events`)

The Python stack is a list indexed from the bottom (`stack[priority-1]` is
level `priority`, `stack[-1]` the top).  Here the stack is kept top-first:
the head is Python's `stack[-1]`, Python's `stack[priority-1]` is position
`length - priority` from the head, and `stack.pop()` is `tail`. -/

/-- Result of the pop loop inside `gen_events`' `open` handling. -/
inductive WPRes where
  | cont (stack : List (Option Entry)) (now : Int) (acc : List OutageEvent)
  | halt (acc : List OutageEvent)
deriving Repr

/-- `end_date is not None and now > end_date`. -/
def haltCheck : Option Int → Int → Bool
  | none, _ => false
  | some ed, n => n > ed

/-- The `while len(stack) > priority` loop: drop `None` cells, stop at an
open entry, pop closed entries — emitting those still ahead of the cursor
(unless blanked `"none"` or ending before `start_date`) and advancing
`now` to their end, returning from the generator when `now` passes
`end_date`. -/
def whilePop (startD : Int) (endD : Option Int) (p : Nat) :
    List (Option Entry) → Int → List OutageEvent → WPRes
  | stack, now, acc =>
    if stack.length ≤ p then .cont stack now acc
    else
      match stack with
      | [] => .cont [] now acc
      | none :: rest => whilePop startD endD p rest now acc
      | some e :: rest =>
        match e.stop with
        | none => .cont (some e :: rest) now acc
        | some en =>
          if en > now then
            let acc2 := if e.summary ≠ "none" ∧ en > startD
                        then acc ++ [⟨e.summary, now, en⟩] else acc
            if haltCheck endD en then .halt acc2
            else whilePop startD endD p rest en acc2
          else whilePop startD endD p rest now acc

/-- Python's padding with `None` to length `priority` followed by
`stack[0:priority-1] + [x]`, in top-first form: the new cell, then the
padding, then what survives of the old stack (everything below level
`priority`; at most the old top cell is discarded, since the caller
guarantees `len(stack) <= priority`). -/
def pushTop (p : Nat) (x : Entry) (t : List (Option Entry)) :
    List (Option Entry) :=
  some x :: (List.replicate (p - 1 - t.length) none ++
             t.drop (t.length - (p - 1)))

/-- The `close` action:
`if priority <= len(stack) and stack[priority-1] is not None:
stack[priority-1]["end"] = at` (level `p` is position `length - p` from the
top). -/
def setLevel (p : Nat) (v : Int) (t : List (Option Entry)) :
    List (Option Entry) :=
  if 1 ≤ p ∧ p ≤ t.length then
    match t.get? (t.length - p) with
    | some (some e) => t.set (t.length - p) (some { e with stop := some v })
    | _ => t
  else t

/-- State of one evaluation of `gen_events`: the priority stack, the running
cursor `now` (`none` before the first edge), and the events yielded so far. -/
structure MState where
  stack : List (Option Entry)
  now : Option Int
  acc : List OutageEvent
deriving Repr

/-- Result of processing edges: still running, returned early
(`return` inside the generator), or a raised exception. -/
inductive RunRes where
  | cont (st : MState)
  | halt (acc : List OutageEvent)
  | err (e : PyErr)
deriving Repr

/-- Processing an `open` edge at priority `p`, label `t`, time `a`: the pop
loop; then the skip when a higher layer is still active
(`if priority < len(stack): continue`); then either the continuation of an
identical still-relevant top (deleting `"end"` — a `KeyError` when the key
is absent, i.e. same label and still open), or closing the top (emitting it
with `start = max(now, top.start)` and `end` its own end if set else `a`,
subject to the `"none"` blanking and `end > start_date` filters, advancing
`now` to `a`) and pushing the fresh open interval at level `p`. -/
def stepOpen (startD : Int) (endD : Option Int) (p : Nat) (t : String)
    (a : Int) (stack : List (Option Entry)) (now : Int)
    (acc : List OutageEvent) : RunRes :=
  match whilePop startD endD p stack now acc with
  | .halt acc1 => .halt acc1
  | .cont stack1 now1 acc1 =>
    if p < stack1.length then .cont ⟨stack1, some now1, acc1⟩
    else
      match stack1 with
      | [] => .cont ⟨pushTop p ⟨t, a, none⟩ stack1, some now1, acc1⟩
      | none :: _ => .cont ⟨pushTop p ⟨t, a, none⟩ stack1, some now1, acc1⟩
      | some e :: _ =>
        if (!(e.summary = t)) || (match e.stop with
                                  | some en => decide (en < a)
                                  | none => false) then
          let s := max now1 e.start
          let resStop := match e.stop with
                         | some en => en
                         | none => a
          let emitQ : Bool := (!(e.summary = "none")) &&
            (match e.stop with
             | none => true
             | some en => decide (en > now1))
          let acc2 := if emitQ && decide (resStop > startD)
                      then acc1 ++ [⟨e.summary, s, resStop⟩] else acc1
          if haltCheck endD a then .halt acc2
          else .cont ⟨pushTop p ⟨t, a, none⟩ stack1, some a, acc2⟩
        else
          match e.stop with
          | none => .err .keyError
          | some _ =>
            .cont ⟨pushTop p ⟨e.summary, e.start, none⟩ stack1,
                   some now1, acc1⟩

/-- Processing one edge: seed `now` with the first edge's time, then
dispatch on the action. -/
def stepEdge (startD : Int) (endD : Option Int) (st : MState) (ed : Edge) :
    RunRes :=
  let n := match st.now with
           | none => ed.time
           | some n => n
  match ed.action with
  | .aopen => stepOpen startD endD ed.priority ed.type ed.time st.stack n st.acc
  | .aclose => .cont ⟨setLevel ed.priority ed.time st.stack, some n, st.acc⟩

/-- The main loop of `gen_events` over the merged edge stream. -/
def runEdges (startD : Int) (endD : Option Int) :
    List Edge → MState → RunRes
  | [], st => .cont st
  | e :: es, st =>
    match stepEdge startD endD st e with
    | .cont st2 => runEdges startD endD es st2
    | .halt a => .halt a
    | .err x => .err x

/-- The drain loop after the edge streams are exhausted: pop everything,
emitting with the same rules; `last["end"]` is read unconditionally, a
`KeyError` when an entry is still open. -/
def drainLoop (startD : Int) (endD : Option Int) :
    List (Option Entry) → Int → List OutageEvent →
    Except PyErr (List OutageEvent)
  | [], _, acc => .ok acc
  | none :: rest, now, acc => drainLoop startD endD rest now acc
  | some e :: rest, now, acc =>
    match e.stop with
    | none => .error .keyError
    | some en =>
      if en > now then
        let acc2 := if e.summary ≠ "none" ∧ en > startD
                    then acc ++ [⟨e.summary, now, en⟩] else acc
        if haltCheck endD en then .ok acc2
        else drainLoop startD endD rest en acc2
      else drainLoop startD endD rest now acc

/-- Entry to the drain: with a non-empty stack and `now` still `None` the
comparison `last["end"] > now` would be a `TypeError` (unreachable from the
generators: a non-empty stack implies an edge was processed). -/
def drain (startD : Int) (endD : Option Int) (st : MState) :
    Except PyErr (List OutageEvent) :=
  match st.stack with
  | [] => .ok st.acc
  | _ =>
    match st.now with
    | none => .error .typeError
    | some n => drainLoop startD endD st.stack n st.acc

/-- `gen_events` on an already-merged edge stream: run the machine; an early
`return` yields the collected events and never touches the rest of the
stream (so a pending stream exception is never raised); otherwise a stream
exception surfaces after the last merged edge, and only a clean exhaustion
reaches the drain. -/
def genEventsCore (startD : Int) (endD : Option Int) (edges : List Edge)
    (merr : Option PyErr) : Except PyErr (List OutageEvent) :=
  match runEdges startD endD edges ⟨[], none, []⟩ with
  | .halt acc => .ok acc
  | .err e => .error e
  | .cont st =>
    match merr with
    | some e => .error e
    | none => drain startD endD st

/-- The merged edge stream consumed by `gen_events`. -/
def mergedStream (api : YasnoOutagesApi) (startD : Int) (fuel : Nat) :
    List Edge × Option PyErr :=
  match genScheduleRecurrentEvents api startD fuel with
  | (r, re) =>
    match genExceptionEvents api startD with
    | (x, xe) => merge2 r re x xe

/-- `gen_events(start_date, end_date)` with the weekly stream truncated to
`fuel` days. -/
def genEvents (api : YasnoOutagesApi) (startD : Int) (endD : Option Int)
    (fuel : Nat) : Except PyErr (List OutageEvent) :=
  match mergedStream api startD fuel with
  | (es, merr) => genEventsCore startD endD es merr

/-- `get_events(start_date, end_date) = [*gen_events(start_date, end_date)]`:
the collected list, or the exception the generator raises. -/
def getEvents (api : YasnoOutagesApi) (startD endD : Int) (fuel : Nat) :
    Except PyErr (List OutageEvent) :=
  genEvents api startD (some endD) fuel


/-! ## Predicates and accessors used by the verification -/

/-- Every event of `l` has a label other than `"none"` and ends strictly
after `startD`. -/
def OutOK (startD : Int) (l : List OutageEvent) : Prop :=
  ∀ e ∈ l, e.summary ≠ "none" ∧ startD < e.stop


/-- The yielded-events component of a pop-loop result. -/
def wpAcc : WPRes → List OutageEvent
  | .cont _ _ a => a
  | .halt a => a


/-- The yielded-events component of a machine-loop result (`[]` when an
exception is raised, since nothing is returned then). -/
def runAcc : RunRes → List OutageEvent
  | .cont st => st.acc
  | .halt a => a
  | .err _ => []

/-- The value of an `Except`-result, `[]` on error. -/
def exVal : Except PyErr (List OutageEvent) → List OutageEvent
  | .ok l => l
  | .error _ => []


/-- Edge times from position to position never decrease, and the first is at
least `t` (the relative form used by the machine inductions). -/
def SortedFrom (t : Int) : List Edge → Prop
  | [] => True
  | e :: es => t ≤ e.time ∧ SortedFrom e.time es

/-- The merged edge stream is chronologically ordered (non-decreasing
timestamps).  This holds for well-formed inputs: each day's slots sorted and
non-overlapping with minutes in `[0, 1440]`, and exception records listed in
increasing date order; it fails when exception records are out of order. -/
def ChronoSorted (l : List Edge) : Prop :=
  l.Chain' (fun a b => a.time ≤ b.time)

/-- Sortedness and disjointness of an output list: consecutive events do not
overlap (`stop ≤` next `start`) and every event is non-degenerate-ordered
(`start ≤ stop`). -/
def EvChain (l : List OutageEvent) : Prop :=
  l.Chain' (fun a b => a.stop ≤ b.start) ∧ ∀ e ∈ l, e.start ≤ e.stop

/-- All events end by `n`. -/
def accBound (n : Int) (l : List OutageEvent) : Prop :=
  ∀ e ∈ l, e.stop ≤ n

/-- Every entry of the stack was opened by time `t`, and its end (when set)
lies between its start and `t`. -/
def stackBound (t : Int) (stk : List (Option Entry)) : Prop :=
  ∀ c ∈ stk, ∀ e : Entry, c = some e →
    e.start ≤ t ∧ ∀ s, e.stop = some s → e.start ≤ s ∧ s ≤ t

/-- Machine invariant at current time `t` for the sortedness proof. -/
def MInv (t : Int) (st : MState) : Prop :=
  EvChain st.acc ∧
  match st.now with
  | none => st.acc = [] ∧ st.stack = []
  | some n => n ≤ t ∧ accBound n st.acc ∧ stackBound t st.stack

/-- The cursor has not passed `end_date`, except possibly before the first
emission (the cursor is seeded with the first edge's time without a bound
check; every later cursor update is followed by the `now > end_date`
check). -/
def NowE (endD : Option Int) (st : MState) : Prop :=
  ∀ E, endD = some E → ∀ n, st.now = some n → n ≤ E ∨ st.acc = []

/-- Keep the events ending after `B` (the suffix-window restriction). -/
def filterStop (B : Int) (l : List OutageEvent) : List OutageEvent :=
  l.filter (fun e => decide (B < e.stop))

/-! ## Stream discipline for the crash-freedom proof

`StreamOK o1 o2 o3 es` says the edge stream `es` follows the shape the two
generators produce, given which priority levels currently have an unmatched
open edge: priority-1 and priority-3 edges alternate open/close with labels
other than `"none"`, priority-2 edges alternate with label `"none"`, and
priority-3 edges occur only between a priority-2 open and its close. -/
inductive StreamOK : Bool → Bool → Bool → List Edge → Prop where
  | nil : StreamOK false false false []
  | open1 {o2 o3 : Bool} {es : List Edge} (e : Edge) :
      e.priority = 1 → e.action = .aopen → e.type ≠ "none" →
      StreamOK true o2 o3 es → StreamOK false o2 o3 (e :: es)
  | close1 {o2 o3 : Bool} {es : List Edge} (e : Edge) :
      e.priority = 1 → e.action = .aclose →
      StreamOK false o2 o3 es → StreamOK true o2 o3 (e :: es)
  | open2 {o1 : Bool} {es : List Edge} (e : Edge) :
      e.priority = 2 → e.action = .aopen → e.type = "none" →
      StreamOK o1 true false es → StreamOK o1 false false (e :: es)
  | close2 {o1 : Bool} {es : List Edge} (e : Edge) :
      e.priority = 2 → e.action = .aclose →
      StreamOK o1 false false es → StreamOK o1 true false (e :: es)
  | open3 {o1 : Bool} {es : List Edge} (e : Edge) :
      e.priority = 3 → e.action = .aopen → e.type ≠ "none" →
      StreamOK o1 true true es → StreamOK o1 true false (e :: es)
  | close3 {o1 : Bool} {es : List Edge} (e : Edge) :
      e.priority = 3 → e.action = .aclose →
      StreamOK o1 true false es → StreamOK o1 true true (e :: es)

/-- Bottom-indexed view of the stack: `lvl stk i` is Python's `stack[i]`. -/
def lvl (stk : List (Option Entry)) (i : Nat) : Option (Option Entry) :=
  stk.reverse.get? i

/-- Stack invariant tying the stream flags to the stack for the
crash-freedom proof: at most three levels; a closed flag means the level
holds no open entry; an open priority-2 flag means level 2 is an open
`"none"` entry; an open priority-3 flag means level 3 is open; level-1
entries never carry the `"none"` label and level-2 entries always do. -/
def SafeInv (o1 o2 o3 : Bool) (stk : List (Option Entry)) : Prop :=
  stk.length ≤ 3 ∧
  (o1 = false → ∀ e : Entry, lvl stk 0 = some (some e) → e.stop ≠ none) ∧
  (∀ e : Entry, lvl stk 0 = some (some e) → e.summary ≠ "none") ∧
  (o2 = false → ∀ e : Entry, lvl stk 1 = some (some e) → e.stop ≠ none) ∧
  (o2 = true → ∃ e : Entry, lvl stk 1 = some (some e) ∧ e.stop = none ∧
    e.summary = "none") ∧
  (∀ e : Entry, lvl stk 1 = some (some e) → e.summary = "none") ∧
  (o3 = false → ∀ e : Entry, lvl stk 2 = some (some e) → e.stop ≠ none) ∧
  (o3 = true → ∃ e : Entry, lvl stk 2 = some (some e) ∧ e.stop = none)

/-- Alternating open/close discipline of the priority-1 weekly stream. -/
inductive Alt1 : Bool → List Edge → Prop where
  | nil : Alt1 false []
  | aopen {es : List Edge} (e : Edge) :
      e.priority = 1 → e.action = .aopen → e.type ≠ "none" →
      Alt1 true es → Alt1 false (e :: es)
  | aclose {es : List Edge} (e : Edge) :
      e.priority = 1 → e.action = .aclose →
      Alt1 false es → Alt1 true (e :: es)

/-- Shape of the exception stream: day-opens and day-closes at priority 2
with label `"none"` bracketing alternating priority-3 slot pairs. -/
inductive P23 : Bool → Bool → List Edge → Prop where
  | nil : P23 false false []
  | open2 {es : List Edge} (e : Edge) :
      e.priority = 2 → e.action = .aopen → e.type = "none" →
      P23 true false es → P23 false false (e :: es)
  | close2 {es : List Edge} (e : Edge) :
      e.priority = 2 → e.action = .aclose →
      P23 false false es → P23 true false (e :: es)
  | open3 {es : List Edge} (e : Edge) :
      e.priority = 3 → e.action = .aopen → e.type ≠ "none" →
      P23 true true es → P23 true false (e :: es)
  | close3 {es : List Edge} (e : Edge) :
      e.priority = 3 → e.action = .aclose →
      P23 true false es → P23 true true (e :: es)

/-- `l` is an order-preserving interleaving of `a` and `b` (what a two-way
merge produces). -/
inductive Interleave : List Edge → List Edge → List Edge → Prop where
  | nil : Interleave [] [] []
  | left {l a b : List Edge} (e : Edge) :
      Interleave l a b → Interleave (e :: l) (e :: a) b
  | right {l a b : List Edge} (e : Edge) :
      Interleave l a b → Interleave (e :: l) a (e :: b)

/-- A slot acceptable to `_build_event_hour` with a non-sentinel label:
minutes within the day and a label other than the blanking `"none"`. -/
def SlotOK (s : Slot) : Prop :=
  0 ≤ s.start ∧ s.start ≤ 1440 ∧ 0 ≤ s.stop ∧ s.stop ≤ 1440 ∧
  s.type ≠ "none"

/-- An exception record is well-formed for group `g`: if its title parses,
the date is valid for `datetime.replace` and the record carries slots for
`g`, all well-formed. -/
def RecordOK (g : String) (r : ExRecord) : Prop :=
  ∀ dd mm yy, searchDate r.title = some (dd, mm, yy) →
    validYMD yy mm dd = true ∧
    ∃ slots, assocGet g r.groups = some slots ∧ ∀ s ∈ slots, SlotOK s

/-- Well-formed inputs for the crash-freedom statement: every weekly slot of
the configured group is well-formed, and if a daily schedule is present the
configured city is one of its keys, a group is configured, and every record
of that city is well-formed for it. -/
def ApiOK (api : YasnoOutagesApi) : Prop :=
  (∀ day ∈ getGroupSchedule api, ∀ s ∈ day, SlotOK s) ∧
  (∀ d, api.daily = some d →
    ∃ c recs, api.city = some c ∧ assocGet c d = some recs ∧
      ∃ g, api.group = some g ∧ ∀ r ∈ recs.map Prod.snd, RecordOK g r)

instance : DecidablePred SlotOK := fun s =>
  decidable_of_iff (0 ≤ s.start ∧ s.start ≤ 1440 ∧ 0 ≤ s.stop ∧
    s.stop ≤ 1440 ∧ s.type ≠ "none") Iff.rfl

/-! ## The spec's coverage-idempotence relation (claim C10)

`concatMatches B xs ys`: `xs = ys`, or `ys` is `xs` with exactly one
adjacent pair — ending and restarting at `B` with equal labels — merged
into one event (the spec's "at most one interval straddling `B` split at
`B` into two halves whose labels match"). -/
def splitMergeAt (B : Int) : List OutageEvent → List OutageEvent → Bool
  | a :: b :: t, y :: u =>
    (decide (y = ⟨a.summary, a.start, b.stop⟩) && decide (a.stop = B) &&
     decide (b.start = B) && decide (a.summary = b.summary) &&
     decide (t = u)) ||
    (decide (a = y) && splitMergeAt B (b :: t) u)
  | _, _ => false

def concatMatches (B : Int) (xs ys : List OutageEvent) : Bool :=
  decide (xs = ys) || splitMergeAt B xs ys

/-! ## Concrete configurations used by counterexamples and witnesses

Timestamps are minutes from 0001-01-01T00:00, a Monday, so `0` is a Monday
midnight, `540` is Monday 09:00, `1440` Tuesday 00:00, `10080` the next
Monday, and the title `"1.1.1"` parses to that first Monday. -/

/-- Weekly base: Monday 09:00-10:00 `"outage"`; exception day on that
Monday fully overridden by `"maintenance"` (the spec's override scenario). -/
def apiOverride : YasnoOutagesApi :=
  { city := some "c", group := some "g",
    schedule := some [("c", [("group_g",
      [[⟨540, 600, "outage"⟩], [], [], [], [], [], []])])],
    daily := some [("c", [("k",
      ⟨"1.1.1", [("g", [⟨0, 1440, "maintenance"⟩])]⟩)])] }

/-- Two exception days supplied in reverse chronological order (second
Monday `"8.1.1"` first, first Monday `"1.1.1"` second); no weekly table. -/
def apiUnordered : YasnoOutagesApi :=
  { city := some "c", group := some "g", schedule := none,
    daily := some [("c",
      [("k1", ⟨"8.1.1", [("g", [⟨540, 600, "x"⟩])]⟩),
       ("k2", ⟨"1.1.1", [("g", [⟨540, 600, "y"⟩])]⟩)])] }

/-- Weekly base with a Wednesday 09:00-15:00 slot only. -/
def apiWednesday : YasnoOutagesApi :=
  { city := some "c", group := some "g",
    schedule := some [("c", [("group_g",
      [[], [], [⟨540, 900, "x"⟩], [], [], [], []])])],
    daily := none }

/-- A weekly slot spanning the week boundary, written as two table entries:
Sunday `s`-24:00 and Monday 00:00-`e`, same label `L`. -/
def apiRollover (L : String) (s e : Int) : YasnoOutagesApi :=
  { city := some "c", group := some "g",
    schedule := some [("c", [("group_g",
      [[⟨0, e, L⟩], [], [], [], [], [], [⟨s, 1440, L⟩]])])],
    daily := none }

/-- An exception record whose `groups` mapping lacks the configured group
`"g"`; all slots well-formed. -/
def apiNoGroup : YasnoOutagesApi :=
  { city := some "c", group := some "g", schedule := none,
    daily := some [("c", [("k", ⟨"1.1.1", [("other", [])]⟩)])] }

/-- A daily schedule that is present but has no entry for the configured
city. -/
def apiNoCity : YasnoOutagesApi :=
  { city := some "kyiv", group := some "g", schedule := none,
    daily := some [("lviv", [])] }

/-- A first record whose title matches the date pattern with an impossible
calendar date (`40.13.5`), followed by a well-formed record. -/
def apiBadDate : YasnoOutagesApi :=
  { city := some "c", group := some "g", schedule := none,
    daily := some [("c",
      [("k1", ⟨"40.13.5", [("g", [⟨540, 600, "x"⟩])]⟩),
       ("k2", ⟨"1.1.1", [("g", [⟨540, 600, "y"⟩])]⟩)])] }

/-- The emitted-or-not accumulator of the push branch: the old top `e` is
reported with `start = max(now, e.start)` and `end` its own end when set,
else the incoming time `a`, if not blanked, still ahead of the cursor, and
ending after `start_date`. -/
def pushAcc (A : Int) (e : Entry) (a now1 : Int) (acc1 : List OutageEvent) :
    List OutageEvent :=
  if ((!(e.summary = "none")) &&
      (match e.stop with
       | none => true
       | some en => decide (en > now1))) &&
      decide ((match e.stop with
               | some en => en
               | none => a) > A)
  then acc1 ++ [⟨e.summary, max now1 e.start,
                 match e.stop with
                 | some en => en
                 | none => a⟩]
  else acc1


/-- What the sortedness proof needs from a finished run. -/
def RunOut (E : Option Int) (r : RunRes) : Prop :=
  match r with
  | .cont st =>
      EvChain st.acc ∧ (st.now = none → st.acc = []) ∧
      (∀ n, st.now = some n → accBound n st.acc ∧
        (∀ Ev, E = some Ev → n ≤ Ev ∨ st.acc = []))
  | .halt out =>
      EvChain out ∧
      (∀ Ev, E = some Ev → ∀ x ∈ out.dropLast, x.stop ≤ Ev)
  | .err _ => True


/-- The first edge's time, a lower bound seed for `SortedFrom`. -/
def firstTime : List Edge → Int
  | [] => 0
  | e :: _ => e.time


/-- Executable check of `ChronoSorted`, for discharging the hypothesis on
concrete streams. -/
def chronoSortedB : List Edge → Bool
  | [] => true
  | [_] => true
  | a :: b :: t => decide (a.time ≤ b.time) && chronoSortedB (b :: t)

/-- Decidable equality of engine results, kernel-reducible (for `decide` on
concrete runs). -/
instance : DecidableEq (Except PyErr (List OutageEvent)) := fun a b =>
  match a, b with
  | .ok x, .ok y =>
    if h : x = y then .isTrue (by rw [h])
    else .isFalse (fun hh => h (Except.ok.inj hh))
  | .error x, .error y =>
    if h : x = y then .isTrue (by rw [h])
    else .isFalse (fun hh => h (Except.error.inj hh))
  | .ok _, .error _ => .isFalse (fun hh => Except.noConfusion hh)
  | .error _, .ok _ => .isFalse (fun hh => Except.noConfusion hh)

/-- No weekly table and no daily schedule at all. -/
def apiEmptyCfg : YasnoOutagesApi :=
  { city := some "c", group := some "g", schedule := none, daily := none }

/-- A record with no date in its title followed by a well-formed record. -/
def apiSkip1 : YasnoOutagesApi :=
  { city := some "c", group := some "g", schedule := none,
    daily := some [("c",
      [("k0", ⟨"emergency shutdowns", [("g", [⟨0, 60, "z"⟩])]⟩),
       ("k2", ⟨"1.1.1", [("g", [⟨540, 600, "y"⟩])]⟩)])] }

/-- `apiSkip1` without the dateless record. -/
def apiSkip2 : YasnoOutagesApi :=
  { city := some "c", group := some "g", schedule := none,
    daily := some [("c",
      [("k2", ⟨"1.1.1", [("g", [⟨540, 600, "y"⟩])]⟩)])] }

/-- Filter a run result's output (stack, cursor and errors unchanged). -/
def rrFilter (B : Int) : RunRes → RunRes
  | .cont st => .cont ⟨st.stack, st.now, filterStop B st.acc⟩
  | .halt a => .halt (filterStop B a)
  | .err e => .err e

/-- Executable: the edges of `l` are sorted by the merge key, all bounded
below by `k`. -/
def kSortedFromB (k : Int × Int) : List Edge → Bool
  | [] => true
  | e :: es => keyLE k (edgeKey e) && kSortedFromB (edgeKey e) es

end Yasno

namespace Yasno

/-! ## Emission-site facts: every yielded event has a non-sentinel label and
ends after `start_date`.  These hold for arbitrary edge streams. -/

theorem outOK_append {A : Int} {l : List OutageEvent} {s : String} {a b : Int}
    (h : OutOK A l) (hs : s ≠ "none") (hb : A < b) :
    OutOK A (l ++ [⟨s, a, b⟩]) := by
  intro e he
  rcases List.mem_append.1 he with h1 | h1
  · exact h e h1
  · simp at h1
    subst h1
    exact ⟨hs, hb⟩

theorem whilePop_stop {A : Int} {E : Option Int} {p : Nat}
    {stack : List (Option Entry)} {now : Int} {acc : List OutageEvent}
    (h : stack.length ≤ p) :
    whilePop A E p stack now acc = .cont stack now acc := by
  rw [whilePop.eq_def]
  simp [h]

theorem whilePop_cons_none {A : Int} {E : Option Int} {p : Nat}
    {tl : List (Option Entry)} {now : Int} {acc : List OutageEvent}
    (h : ¬ (tl.length + 1 ≤ p)) :
    whilePop A E p (none :: tl) now acc = whilePop A E p tl now acc := by
  rw [whilePop.eq_def]
  simp only [List.length_cons, if_neg h]

theorem whilePop_cons_open {A : Int} {E : Option Int} {p : Nat}
    {e : Entry} {tl : List (Option Entry)} {now : Int} {acc : List OutageEvent}
    (h : ¬ (tl.length + 1 ≤ p)) (he : e.stop = none) :
    whilePop A E p (some e :: tl) now acc = .cont (some e :: tl) now acc := by
  rw [whilePop.eq_def]
  simp only [List.length_cons, if_neg h, he]

theorem whilePop_cons_gt {A : Int} {E : Option Int} {p : Nat}
    {e : Entry} {tl : List (Option Entry)} {now en : Int}
    {acc : List OutageEvent}
    (h : ¬ (tl.length + 1 ≤ p)) (he : e.stop = some en) (hgt : en > now) :
    whilePop A E p (some e :: tl) now acc =
      (if haltCheck E en
       then WPRes.halt (if e.summary ≠ "none" ∧ en > A
                        then acc ++ [⟨e.summary, now, en⟩] else acc)
       else whilePop A E p tl en
              (if e.summary ≠ "none" ∧ en > A
               then acc ++ [⟨e.summary, now, en⟩] else acc)) := by
  rw [whilePop.eq_def]
  simp only [List.length_cons, if_neg h, he, if_pos hgt]

theorem whilePop_cons_le {A : Int} {E : Option Int} {p : Nat}
    {e : Entry} {tl : List (Option Entry)} {now en : Int}
    {acc : List OutageEvent}
    (h : ¬ (tl.length + 1 ≤ p)) (he : e.stop = some en) (hgt : ¬ en > now) :
    whilePop A E p (some e :: tl) now acc = whilePop A E p tl now acc := by
  rw [whilePop.eq_def]
  simp only [List.length_cons, if_neg h, he, if_neg hgt]

theorem whilePop_outOK {A : Int} {E : Option Int} {p : Nat} :
    ∀ (stack : List (Option Entry)) (now : Int) (acc : List OutageEvent),
      OutOK A acc → OutOK A (wpAcc (whilePop A E p stack now acc)) := by
  intro stack
  induction stack with
  | nil =>
    intro now acc h
    rw [whilePop_stop (by simp)]
    exact h
  | cons hd tl ih =>
    intro now acc h
    by_cases hle : (hd :: tl).length ≤ p
    · rw [whilePop_stop hle]
      exact h
    · simp only [List.length_cons] at hle
      match hd with
      | none =>
        rw [whilePop_cons_none hle]
        exact ih now acc h
      | some e =>
        match he : e.stop with
        | none =>
          rw [whilePop_cons_open hle he]
          exact h
        | some en =>
          by_cases hgt : en > now
          · rw [whilePop_cons_gt hle he hgt]
            have hacc2 : OutOK A (if e.summary ≠ "none" ∧ en > A
                then acc ++ [⟨e.summary, now, en⟩] else acc) := by
              split
              · next hc => exact outOK_append h hc.1 hc.2
              · exact h
            split
            · exact hacc2
            · exact ih en _ hacc2
          · rw [whilePop_cons_le hle he hgt]
            exact ih now acc h

theorem stepOpen_outOK {A : Int} {E : Option Int} {p : Nat} {t : String}
    {a : Int} {stack : List (Option Entry)} {now : Int}
    {acc : List OutageEvent} (h : OutOK A acc) :
    OutOK A (runAcc (stepOpen A E p t a stack now acc)) := by
  have hw := whilePop_outOK (A := A) (E := E) (p := p) stack now acc h
  rcases hres : whilePop A E p stack now acc with ⟨stack1, now1, acc1⟩ | acc1
  · rw [hres] at hw
    simp only [wpAcc] at hw
    simp only [stepOpen, hres]
    split
    · exact hw
    · match stack1 with
      | [] => exact hw
      | none :: tl => exact hw
      | some e :: tl =>
        simp only
        split
        · have hacc2 : OutOK A (if ((!(e.summary = "none")) &&
              (match e.stop with
               | none => true
               | some en => decide (en > now1))) &&
              decide ((match e.stop with
                       | some en => en
                       | none => a) > A)
              then acc1 ++ [⟨e.summary, max now1 e.start,
                             match e.stop with
                             | some en => en
                             | none => a⟩] else acc1) := by
            split
            · next hc =>
              simp only [Bool.and_eq_true, Bool.not_eq_true',
                decide_eq_true_eq] at hc
              refine outOK_append hw ?_ hc.2
              intro hh
              rw [hh] at hc
              simp at hc
            · exact hw
          split
          · exact hacc2
          · exact hacc2
        · match e.stop with
          | none => intro x hx; simp [runAcc] at hx
          | some _ => exact hw
  · rw [hres] at hw
    simp only [wpAcc] at hw
    simp only [stepOpen, hres]
    exact hw

theorem stepEdge_outOK {A : Int} {E : Option Int} {st : MState} {ed : Edge}
    (h : OutOK A st.acc) : OutOK A (runAcc (stepEdge A E st ed)) := by
  simp only [stepEdge]
  match ed.action with
  | .aopen => exact stepOpen_outOK h
  | .aclose => exact h

theorem runEdges_outOK {A : Int} {E : Option Int} :
    ∀ (es : List Edge) (st : MState), OutOK A st.acc →
      OutOK A (runAcc (runEdges A E es st)) := by
  intro es
  induction es with
  | nil => intro st h; exact h
  | cons e es ih =>
    intro st h
    have hs := @stepEdge_outOK A E st e h
    rw [runEdges]
    rcases hres : stepEdge A E st e with st2 | a2 | x
    · rw [hres] at hs
      exact ih st2 hs
    · rw [hres] at hs
      exact hs
    · intro x hx
      simp [runAcc] at hx

theorem drainLoop_outOK {A : Int} {E : Option Int} :
    ∀ (stack : List (Option Entry)) (now : Int) (acc : List OutageEvent),
      OutOK A acc → OutOK A (exVal (drainLoop A E stack now acc)) := by
  intro stack
  induction stack with
  | nil => intro now acc h; exact h
  | cons hd tl ih =>
    intro now acc h
    match hd with
    | none =>
      rw [drainLoop]
      exact ih now acc h
    | some e =>
      rw [drainLoop]
      match e.stop with
      | none => intro x hx; simp [exVal] at hx
      | some en =>
        simp only
        split
        · have hacc2 : OutOK A (if e.summary ≠ "none" ∧ en > A
              then acc ++ [⟨e.summary, now, en⟩] else acc) := by
            split
            · next hc => exact outOK_append h hc.1 hc.2
            · exact h
          split
          · exact hacc2
          · exact ih en _ hacc2
        · exact ih now acc h

theorem drain_outOK {A : Int} {E : Option Int} {st : MState}
    (h : OutOK A st.acc) : OutOK A (exVal (drain A E st)) := by
  rw [drain]
  match st.stack with
  | [] => exact h
  | c :: tl =>
    simp only
    match st.now with
    | none => intro x hx; simp [exVal] at hx
    | some n => exact drainLoop_outOK _ n _ h

theorem genEventsCore_outOK {A : Int} {E : Option Int} {es : List Edge}
    {merr : Option PyErr} : OutOK A (exVal (genEventsCore A E es merr)) := by
  have hr := runEdges_outOK (A := A) (E := E) es ⟨[], none, []⟩
    (by intro x hx; simp at hx)
  simp only [genEventsCore]
  rcases hres : runEdges A E es ⟨[], none, []⟩ with st | a | x
  · rw [hres] at hr
    match merr with
    | some e => intro x hx; simp [exVal] at hx
    | none => exact drain_outOK hr
  · rw [hres] at hr
    exact hr
  · intro x hx; simp [exVal] at hx

/-! ## Sortedness and disjointness of the output (for arbitrary
chronologically ordered edge streams) -/

theorem evChain_append {l : List OutageEvent} {n : Int} {x : OutageEvent}
    (h : EvChain l) (hb : accBound n l) (h1 : n ≤ x.start)
    (h2 : x.start ≤ x.stop) : EvChain (l ++ [x]) := by
  constructor
  · apply List.Chain'.append h.1 (List.chain'_singleton x)
    intro y hy z hz
    simp at hz
    subst hz
    have hy2 : y ∈ l := List.mem_of_mem_getLast? hy
    exact le_trans (hb y hy2) h1
  · intro e he
    rcases List.mem_append.1 he with h3 | h3
    · exact h.2 e h3
    · simp at h3
      subst h3
      exact h2

theorem accBound_append {l : List OutageEvent} {n m : Int} {x : OutageEvent}
    (h : accBound n l) (h1 : n ≤ m) (h2 : x.stop ≤ m) :
    accBound m (l ++ [x]) := by
  intro e he
  rcases List.mem_append.1 he with h3 | h3
  · exact le_trans (h e h3) h1
  · simp at h3
    subst h3
    exact h2

theorem accBound_mono {l : List OutageEvent} {n m : Int}
    (h : accBound n l) (h1 : n ≤ m) : accBound m l :=
  fun e he => le_trans (h e he) h1

theorem stackBound_mono {stk : List (Option Entry)} {t t' : Int}
    (h : stackBound t stk) (h1 : t ≤ t') : stackBound t' stk := by
  intro c hc e hce
  obtain ⟨ha, hb⟩ := h c hc e hce
  exact ⟨le_trans ha h1, fun s hs => ⟨(hb s hs).1, le_trans (hb s hs).2 h1⟩⟩

theorem stackBound_tail {c : Option Entry} {stk : List (Option Entry)}
    {t : Int} (h : stackBound t (c :: stk)) : stackBound t stk :=
  fun d hd => h d (List.mem_cons_of_mem c hd)

theorem mem_dropLast_sub {α : Type} {l : List α} {x : α}
    (h : x ∈ l.dropLast) : x ∈ l :=
  List.dropLast_subset l h

theorem stackBound_pushTop {p : Nat} {x : Entry} {stk : List (Option Entry)}
    {t : Int} (h : stackBound t stk) (hx : x.start ≤ t) (hs : x.stop = none) :
    stackBound t (pushTop p x stk) := by
  intro c hc e hce
  simp only [pushTop, List.mem_cons, List.mem_append] at hc
  rcases hc with hc | hc | hc
  · subst hc
    injection hce with hce
    subst hce
    refine ⟨hx, fun s hs2 => ?_⟩
    rw [hs] at hs2
    cases hs2
  · have := List.eq_of_mem_replicate hc
    subst this
    cases hce
  · exact h c (List.drop_subset _ _ hc) e hce

theorem stackBound_setLevel {p : Nat} {t : Int} {stk : List (Option Entry)}
    (h : stackBound t stk) : stackBound t (setLevel p t stk) := by
  intro c hc e hce
  rw [setLevel] at hc
  split at hc
  · split at hc
    · next e2 heq =>
      rcases List.mem_or_eq_of_mem_set hc with h2 | h2
      · exact h c h2 e hce
      · subst h2
        injection hce with hce
        subst hce
        have h3 := h (some e2) (List.get?_mem heq) e2 rfl
        refine ⟨h3.1, fun s hs => ?_⟩
        simp at hs
        subst hs
        exact ⟨h3.1, le_refl t⟩
    · exact h c hc e hce
  · exact h c hc e hce

theorem whilePop_chain {A : Int} {E : Option Int} {p : Nat} :
    ∀ (stack : List (Option Entry)) (now : Int) (acc : List OutageEvent)
      (t : Int),
      EvChain acc → accBound now acc → now ≤ t → stackBound t stack →
      (∀ Ev, E = some Ev → now ≤ Ev ∨ acc = []) →
      (match whilePop A E p stack now acc with
       | .cont stk2 n2 a2 =>
           EvChain a2 ∧ accBound n2 a2 ∧ n2 ≤ t ∧ stackBound t stk2 ∧
           (∀ Ev, E = some Ev → n2 ≤ Ev ∨ a2 = [])
       | .halt a2 =>
           EvChain a2 ∧
           (∀ Ev, E = some Ev → ∀ x ∈ a2.dropLast, x.stop ≤ Ev)) := by
  intro stack
  induction stack with
  | nil =>
    intro now acc t hc hb hnt hsb hne
    rw [whilePop_stop (by simp)]
    exact ⟨hc, hb, hnt, hsb, hne⟩
  | cons hd tl ih =>
    intro now acc t hc hb hnt hsb hne
    by_cases hle : (hd :: tl).length ≤ p
    · rw [whilePop_stop hle]
      exact ⟨hc, hb, hnt, hsb, hne⟩
    · simp only [List.length_cons] at hle
      match hd with
      | none =>
        rw [whilePop_cons_none hle]
        exact ih now acc t hc hb hnt (stackBound_tail hsb) hne
      | some e =>
        match he : e.stop with
        | none =>
          rw [whilePop_cons_open hle he]
          exact ⟨hc, hb, hnt, hsb, hne⟩
        | some en =>
          have hbd := hsb (some e) (List.mem_cons_self _ _) e rfl
          have hen : en ≤ t := (hbd.2 en he).2
          by_cases hgt : en > now
          · rw [whilePop_cons_gt hle he hgt]
            have hacc2 : EvChain (if e.summary ≠ "none" ∧ en > A
                then acc ++ [⟨e.summary, now, en⟩] else acc) ∧
                accBound en (if e.summary ≠ "none" ∧ en > A
                then acc ++ [⟨e.summary, now, en⟩] else acc) := by
              split
              · exact ⟨evChain_append hc hb (le_refl now) (le_of_lt hgt),
                  accBound_append hb (le_of_lt hgt) (le_refl en)⟩
              · exact ⟨hc, accBound_mono hb (le_of_lt hgt)⟩
            by_cases hhc : haltCheck E en
            · rw [if_pos hhc]
              refine ⟨hacc2.1, ?_⟩
              intro Ev hEv x hx
              split at hx
              · rw [List.dropLast_concat] at hx
                rcases hne Ev hEv with h1 | h1
                · exact le_trans (hb x hx) h1
                · rw [h1] at hx
                  cases hx
              · rcases hne Ev hEv with h1 | h1
                · exact le_trans (hb x (mem_dropLast_sub hx)) h1
                · rw [h1] at hx
                  cases hx
            · rw [if_neg hhc]
              have hne2 : ∀ Ev, E = some Ev →
                  en ≤ Ev ∨ (if e.summary ≠ "none" ∧ en > A
                    then acc ++ [⟨e.summary, now, en⟩] else acc) = [] := by
                intro Ev hEv
                left
                rw [hEv] at hhc
                simp [haltCheck] at hhc
                exact hhc
              exact ih en _ t hacc2.1 hacc2.2 hen (stackBound_tail hsb) hne2
          · rw [whilePop_cons_le hle he hgt]
            exact ih now acc t hc hb hnt (stackBound_tail hsb) hne

/-! Branch equations for `stepOpen` (the `open`-edge handler), phrased by the
result of the pop loop. -/

theorem stepOpen_eq_halt {A : Int} {E : Option Int} {p : Nat} {t : String}
    {a : Int} {stack : List (Option Entry)} {now : Int}
    {acc acc1 : List OutageEvent}
    (hres : whilePop A E p stack now acc = .halt acc1) :
    stepOpen A E p t a stack now acc = .halt acc1 := by
  simp only [stepOpen, hres]

theorem stepOpen_eq_skip {A : Int} {E : Option Int} {p : Nat} {t : String}
    {a : Int} {stack stack1 : List (Option Entry)} {now now1 : Int}
    {acc acc1 : List OutageEvent}
    (hres : whilePop A E p stack now acc = .cont stack1 now1 acc1)
    (hlt : p < stack1.length) :
    stepOpen A E p t a stack now acc = .cont ⟨stack1, some now1, acc1⟩ := by
  simp only [stepOpen, hres, if_pos hlt]

theorem stepOpen_eq_empty {A : Int} {E : Option Int} {p : Nat} {t : String}
    {a : Int} {stack : List (Option Entry)} {now now1 : Int}
    {acc acc1 : List OutageEvent}
    (hres : whilePop A E p stack now acc = .cont [] now1 acc1) :
    stepOpen A E p t a stack now acc =
      .cont ⟨pushTop p ⟨t, a, none⟩ [], some now1, acc1⟩ := by
  simp only [stepOpen, hres]
  rfl

theorem stepOpen_eq_noneTop {A : Int} {E : Option Int} {p : Nat} {t : String}
    {a : Int} {stack tl : List (Option Entry)} {now now1 : Int}
    {acc acc1 : List OutageEvent}
    (hres : whilePop A E p stack now acc = .cont (none :: tl) now1 acc1)
    (hlt : ¬ p < tl.length + 1) :
    stepOpen A E p t a stack now acc =
      .cont ⟨pushTop p ⟨t, a, none⟩ (none :: tl), some now1, acc1⟩ := by
  simp only [stepOpen, hres, List.length_cons, if_neg hlt]

theorem stepOpen_eq_push {A : Int} {E : Option Int} {p : Nat} {t : String}
    {a : Int} {stack tl : List (Option Entry)} {e : Entry} {now now1 : Int}
    {acc acc1 : List OutageEvent}
    (hres : whilePop A E p stack now acc = .cont (some e :: tl) now1 acc1)
    (hlt : ¬ p < tl.length + 1)
    (hcond : ((!(e.summary = t)) || (match e.stop with
                                     | some en => decide (en < a)
                                     | none => false)) = true)
    (hhc : haltCheck E a = false) :
    stepOpen A E p t a stack now acc =
      .cont ⟨pushTop p ⟨t, a, none⟩ (some e :: tl), some a,
             pushAcc A e a now1 acc1⟩ := by
  simp only [stepOpen, hres, List.length_cons, if_neg hlt, hcond, if_true,
    hhc, pushAcc, Bool.false_eq_true, if_false]

theorem stepOpen_eq_pushHalt {A : Int} {E : Option Int} {p : Nat}
    {t : String} {a : Int} {stack tl : List (Option Entry)} {e : Entry}
    {now now1 : Int} {acc acc1 : List OutageEvent}
    (hres : whilePop A E p stack now acc = .cont (some e :: tl) now1 acc1)
    (hlt : ¬ p < tl.length + 1)
    (hcond : ((!(e.summary = t)) || (match e.stop with
                                     | some en => decide (en < a)
                                     | none => false)) = true)
    (hhc : haltCheck E a = true) :
    stepOpen A E p t a stack now acc = .halt (pushAcc A e a now1 acc1) := by
  simp only [stepOpen, hres, List.length_cons, if_neg hlt, hcond, if_true,
    hhc, pushAcc, if_true]

theorem stepOpen_eq_continue {A : Int} {E : Option Int} {p : Nat}
    {t : String} {a : Int} {stack tl : List (Option Entry)} {e : Entry}
    {now now1 : Int} {acc acc1 : List OutageEvent} {en : Int}
    (hres : whilePop A E p stack now acc = .cont (some e :: tl) now1 acc1)
    (hlt : ¬ p < tl.length + 1)
    (hcond : ((!(e.summary = t)) || (match e.stop with
                                     | some en => decide (en < a)
                                     | none => false)) = false)
    (hstop : e.stop = some en) :
    stepOpen A E p t a stack now acc =
      .cont ⟨pushTop p ⟨e.summary, e.start, none⟩ (some e :: tl),
             some now1, acc1⟩ := by
  simp only [hstop] at hcond
  simp only [stepOpen, hres, List.length_cons, if_neg hlt, hstop, hcond,
    Bool.false_eq_true, if_false]

theorem stepOpen_eq_err {A : Int} {E : Option Int} {p : Nat}
    {t : String} {a : Int} {stack tl : List (Option Entry)} {e : Entry}
    {now now1 : Int} {acc acc1 : List OutageEvent}
    (hres : whilePop A E p stack now acc = .cont (some e :: tl) now1 acc1)
    (hlt : ¬ p < tl.length + 1)
    (hcond : ((!(e.summary = t)) || (match e.stop with
                                     | some en => decide (en < a)
                                     | none => false)) = false)
    (hstop : e.stop = none) :
    stepOpen A E p t a stack now acc = .err .keyError := by
  simp only [hstop] at hcond
  simp only [stepOpen, hres, List.length_cons, if_neg hlt, hstop, hcond,
    Bool.false_eq_true, if_false]

theorem pushAcc_chain {A : Int} {e : Entry} {a now1 : Int}
    {acc1 : List OutageEvent}
    (hc1 : EvChain acc1) (hb1 : accBound now1 acc1) (hn1 : now1 ≤ a)
    (hs : e.start ≤ a) (hst : ∀ s, e.stop = some s → e.start ≤ s ∧ s ≤ a) :
    EvChain (pushAcc A e a now1 acc1) ∧
    accBound a (pushAcc A e a now1 acc1) := by
  rw [pushAcc]
  split
  · next hcd =>
    simp only [Bool.and_eq_true, decide_eq_true_eq] at hcd
    match hstop : e.stop with
    | none =>
      simp only [hstop]
      exact ⟨evChain_append hc1 hb1 (le_max_left _ _) (max_le hn1 hs),
        accBound_append hb1 hn1 (le_refl a)⟩
    | some en =>
      have hgt : en > now1 := by
        have := hcd.1.2
        rw [hstop] at this
        simpa using this
      have hba := hst en hstop
      simp only [hstop]
      exact ⟨evChain_append hc1 hb1 (le_max_left _ _)
          (max_le (le_of_lt hgt) hba.1),
        accBound_append hb1 hn1 hba.2⟩
  · exact ⟨hc1, accBound_mono hb1 hn1⟩

theorem pushAcc_dropLast {A : Int} {e : Entry} {a now1 : Int}
    {acc1 : List OutageEvent} {Ev : Int}
    (hb1 : accBound now1 acc1) (hne1 : now1 ≤ Ev ∨ acc1 = []) :
    ∀ x ∈ (pushAcc A e a now1 acc1).dropLast, x.stop ≤ Ev := by
  intro x hx
  rcases hne1 with h1 | h1
  · rw [pushAcc] at hx
    split at hx
    · rw [List.dropLast_concat] at hx
      exact le_trans (hb1 x hx) h1
    · exact le_trans (hb1 x (mem_dropLast_sub hx)) h1
  · subst h1
    rw [pushAcc] at hx
    split at hx <;> simp at hx

theorem stepOpen_chain {A : Int} {E : Option Int} {p : Nat} {t : String}
    {a : Int} {stack : List (Option Entry)} {now : Int}
    {acc : List OutageEvent}
    (hc : EvChain acc) (hb : accBound now acc) (hnt : now ≤ a)
    (hsb : stackBound a stack)
    (hne : ∀ Ev, E = some Ev → now ≤ Ev ∨ acc = []) :
    (match stepOpen A E p t a stack now acc with
     | .cont st2 =>
         EvChain st2.acc ∧ stackBound a st2.stack ∧
         (∃ n2, st2.now = some n2 ∧ n2 ≤ a ∧ accBound n2 st2.acc ∧
           (∀ Ev, E = some Ev → n2 ≤ Ev ∨ st2.acc = []))
     | .halt out =>
         EvChain out ∧
         (∀ Ev, E = some Ev → ∀ x ∈ out.dropLast, x.stop ≤ Ev)
     | .err _ => True) := by
  have hw := whilePop_chain (A := A) (E := E) (p := p) stack now acc a
    hc hb hnt hsb hne
  rcases hres : whilePop A E p stack now acc with ⟨stack1, now1, acc1⟩ | acc1
  · rw [hres] at hw
    obtain ⟨hc1, hb1, hn1, hsb1, hne1⟩ := hw
    by_cases hlt : p < stack1.length
    · rw [stepOpen_eq_skip hres hlt]
      exact ⟨hc1, hsb1, now1, rfl, hn1, hb1, hne1⟩
    · match stack1 with
      | [] =>
        rw [stepOpen_eq_empty hres]
        exact ⟨hc1, stackBound_pushTop hsb1 (le_refl a) rfl,
          now1, rfl, hn1, hb1, hne1⟩
      | none :: tl =>
        rw [List.length_cons] at hlt
        rw [stepOpen_eq_noneTop hres hlt]
        exact ⟨hc1, stackBound_pushTop hsb1 (le_refl a) rfl,
          now1, rfl, hn1, hb1, hne1⟩
      | some e :: tl =>
        rw [List.length_cons] at hlt
        have hbd := hsb1 (some e) (List.mem_cons_self _ _) e rfl
        by_cases hcond : ((!(e.summary = t)) ||
            (match e.stop with
             | some en => decide (en < a)
             | none => false)) = true
        · have hpa := pushAcc_chain (A := A) hc1 hb1 hn1 hbd.1
            (fun s hs => hbd.2 s hs)
          by_cases hhc : haltCheck E a = true
          · rw [stepOpen_eq_pushHalt hres hlt hcond hhc]
            exact ⟨hpa.1, fun Ev hEv => pushAcc_dropLast hb1 (hne1 Ev hEv)⟩
          · rw [stepOpen_eq_push hres hlt hcond
              (Bool.not_eq_true _ ▸ hhc)]
            refine ⟨hpa.1, stackBound_pushTop hsb1 (le_refl a) rfl,
              a, rfl, le_refl a, hpa.2, ?_⟩
            intro Ev hEv
            left
            rw [hEv] at hhc
            simpa [haltCheck] using hhc
        · rw [Bool.not_eq_true] at hcond
          match hstop : e.stop with
          | none =>
            rw [stepOpen_eq_err hres hlt hcond hstop]
            trivial
          | some en =>
            rw [stepOpen_eq_continue hres hlt hcond hstop]
            exact ⟨hc1, stackBound_pushTop hsb1 hbd.1 rfl,
              now1, rfl, hn1, hb1, hne1⟩
  · rw [hres] at hw
    rw [stepOpen_eq_halt hres]
    exact hw

theorem minv_mono {t t' : Int} {st : MState} (h : MInv t st) (h1 : t ≤ t') :
    MInv t' st := by
  obtain ⟨hc, hrest⟩ := h
  refine ⟨hc, ?_⟩
  match hn : st.now with
  | none => rw [hn] at hrest; exact hrest
  | some n =>
    rw [hn] at hrest
    exact ⟨le_trans hrest.1 h1, hrest.2.1, stackBound_mono hrest.2.2 h1⟩

theorem setLevel_nil {p : Nat} {v : Int} : setLevel p v [] = [] := by
  rw [setLevel]
  split
  · next h =>
    simp only [List.length_nil] at h
    omega
  · rfl

theorem stepEdge_chain {A : Int} {E : Option Int} {st : MState} {ed : Edge}
    (hm : MInv ed.time st) (hne : NowE E st) :
    (match stepEdge A E st ed with
     | .cont st2 => MInv ed.time st2 ∧ NowE E st2
     | .halt out =>
         EvChain out ∧
         (∀ Ev, E = some Ev → ∀ x ∈ out.dropLast, x.stop ≤ Ev)
     | .err _ => True) := by
  obtain ⟨hc, hrest⟩ := hm
  have hopen : ∀ (n0 : Int), EvChain st.acc → accBound n0 st.acc →
      n0 ≤ ed.time → stackBound ed.time st.stack →
      (∀ Ev, E = some Ev → n0 ≤ Ev ∨ st.acc = []) →
      (match stepOpen A E ed.priority ed.type ed.time st.stack n0 st.acc with
       | .cont st2 => MInv ed.time st2 ∧ NowE E st2
       | .halt out =>
           EvChain out ∧
           (∀ Ev, E = some Ev → ∀ x ∈ out.dropLast, x.stop ≤ Ev)
       | .err _ => True) := by
    intro n0 h1 h2 h3 h4 h5
    have hso := stepOpen_chain (A := A) (E := E) (p := ed.priority)
      (t := ed.type) (a := ed.time) h1 h2 h3 h4 h5
    rcases hres : stepOpen A E ed.priority ed.type ed.time st.stack n0 st.acc
      with st2 | out | x
    · rw [hres] at hso
      obtain ⟨g1, g2, n2, g3, g4, g5, g6⟩ := hso
      refine ⟨⟨g1, ?_⟩, ?_⟩
      · rw [g3]
        exact ⟨g4, g5, g2⟩
      · intro Ev hEv n3 hn3
        rw [g3] at hn3
        injection hn3 with hn3
        subst hn3
        exact g6 Ev hEv
    · rw [hres] at hso
      exact hso
    · trivial
  rcases hn : st.now with _ | n
  · rw [hn] at hrest
    obtain ⟨hacc, hstk⟩ := hrest
    cases ha : ed.action
    · simp only [stepEdge, hn, ha]
      refine hopen ed.time hc ?_ (le_refl _) ?_ ?_
      · rw [hacc]
        intro e he
        cases he
      · rw [hstk]
        intro c hc2
        cases hc2
      · intro Ev hEv
        exact Or.inr hacc
    · simp only [stepEdge, hn, ha]
      refine ⟨⟨hc, ?_⟩, ?_⟩
      · rw [hstk, setLevel_nil]
        refine ⟨le_refl _, ?_, ?_⟩
        · rw [hacc]
          intro e he
          cases he
        · intro c hc2
          cases hc2
      · intro Ev hEv n3 hn3
        exact Or.inr hacc
  · rw [hn] at hrest
    obtain ⟨hnt, hacc, hstk⟩ := hrest
    cases ha : ed.action
    · simp only [stepEdge, hn, ha]
      exact hopen n hc hacc hnt hstk (fun Ev hEv => hne Ev hEv n hn)
    · simp only [stepEdge, hn, ha]
      refine ⟨⟨hc, ?_⟩, ?_⟩
      · exact ⟨hnt, hacc, stackBound_setLevel hstk⟩
      · intro Ev hEv n3 hn3
        injection hn3 with hn3
        subst hn3
        exact hne Ev hEv n hn

theorem runEdges_chain {A : Int} {E : Option Int} :
    ∀ (es : List Edge) (st : MState) (t : Int),
      SortedFrom t es → MInv t st → NowE E st →
      RunOut E (runEdges A E es st) := by
  intro es
  induction es with
  | nil =>
    intro st t _ hm hne
    obtain ⟨hc, hrest⟩ := hm
    refine ⟨hc, ?_, ?_⟩
    · intro hn
      rw [hn] at hrest
      exact hrest.1
    · intro n hn
      rw [hn] at hrest
      exact ⟨hrest.2.1, fun Ev hEv => hne Ev hEv n hn⟩
  | cons e es ih =>
    intro st t hs hm hne
    obtain ⟨hte, hs2⟩ := hs
    have hm2 := minv_mono hm hte
    have hstep := stepEdge_chain (A := A) (E := E) hm2 hne
    rw [runEdges]
    rcases hres : stepEdge A E st e with st2 | out | x
    · rw [hres] at hstep
      exact ih st2 e.time hs2 hstep.1 hstep.2
    · rw [hres] at hstep
      exact hstep
    · trivial

theorem drainLoop_chain {A : Int} {E : Option Int} :
    ∀ (stack : List (Option Entry)) (now : Int) (acc : List OutageEvent),
      EvChain acc → accBound now acc →
      (∀ Ev, E = some Ev → now ≤ Ev ∨ acc = []) →
      (match drainLoop A E stack now acc with
       | .ok out =>
           EvChain out ∧
           (∀ Ev, E = some Ev → ∀ x ∈ out.dropLast, x.stop ≤ Ev)
       | .error _ => True) := by
  intro stack
  induction stack with
  | nil =>
    intro now acc hc hb hne
    refine ⟨hc, ?_⟩
    intro Ev hEv x hx
    rcases hne Ev hEv with h1 | h1
    · exact le_trans (hb x (mem_dropLast_sub hx)) h1
    · rw [h1] at hx
      cases hx
  | cons hd tl ih =>
    intro now acc hc hb hne
    match hd with
    | none =>
      rw [drainLoop]
      exact ih now acc hc hb hne
    | some e =>
      rw [drainLoop]
      match e.stop with
      | none => trivial
      | some en =>
        simp only
        by_cases hgt : en > now
        · rw [if_pos hgt]
          have hacc2 : EvChain (if e.summary ≠ "none" ∧ en > A
              then acc ++ [⟨e.summary, now, en⟩] else acc) ∧
              accBound en (if e.summary ≠ "none" ∧ en > A
              then acc ++ [⟨e.summary, now, en⟩] else acc) := by
            split
            · exact ⟨evChain_append hc hb (le_refl now) (le_of_lt hgt),
                accBound_append hb (le_of_lt hgt) (le_refl en)⟩
            · exact ⟨hc, accBound_mono hb (le_of_lt hgt)⟩
          by_cases hhc : haltCheck E en = true
          · rw [if_pos hhc]
            refine ⟨hacc2.1, ?_⟩
            intro Ev hEv x hx
            split at hx
            · rw [List.dropLast_concat] at hx
              rcases hne Ev hEv with h1 | h1
              · exact le_trans (hb x hx) h1
              · rw [h1] at hx
                cases hx
            · rcases hne Ev hEv with h1 | h1
              · exact le_trans (hb x (mem_dropLast_sub hx)) h1
              · rw [h1] at hx
                cases hx
          · rw [if_neg hhc]
            refine ih en _ hacc2.1 hacc2.2 ?_
            intro Ev hEv
            left
            rw [hEv] at hhc
            simpa [haltCheck] using hhc
        · rw [if_neg hgt]
          exact ih now acc hc hb hne

theorem drain_chain {A : Int} {E : Option Int} {st : MState}
    (h : RunOut E (RunRes.cont st)) :
    (match drain A E st with
     | .ok out =>
         EvChain out ∧
         (∀ Ev, E = some Ev → ∀ x ∈ out.dropLast, x.stop ≤ Ev)
     | .error _ => True) := by
  obtain ⟨hc, hn0, hns⟩ := h
  rw [drain]
  match hstk : st.stack with
  | [] =>
    refine ⟨hc, ?_⟩
    intro Ev hEv x hx
    match hn : st.now with
    | none =>
      rw [hn0 hn] at hx
      cases hx
    | some n =>
      rcases (hns n hn).2 Ev hEv with h1 | h1
      · exact le_trans ((hns n hn).1 x (mem_dropLast_sub hx)) h1
      · rw [h1] at hx
        cases hx
  | c :: tl =>
    simp only
    match hn : st.now with
    | none => trivial
    | some n =>
      rw [← hstk]
      exact drainLoop_chain st.stack n st.acc hc (hns n hn).1
        (fun Ev hEv => (hns n hn).2 Ev hEv)

theorem sortedFrom_of_chrono :
    ∀ (es : List Edge) (t : Int), ChronoSorted es →
      (∀ e1 ∈ es.head?, t ≤ e1.time) → SortedFrom t es := by
  intro es
  induction es with
  | nil => intro t _ _; trivial
  | cons e es ih =>
    intro t hc hh
    rw [ChronoSorted, List.chain'_cons'] at hc
    exact ⟨hh e rfl, ih e.time hc.2 hc.1⟩

theorem genEventsCore_chain {A : Int} {E : Option Int} {edges : List Edge}
    {merr : Option PyErr} (hs : ChronoSorted edges) :
    (match genEventsCore A E edges merr with
     | .ok l =>
         EvChain l ∧
         (∀ Ev, E = some Ev → ∀ x ∈ l.dropLast, x.stop ≤ Ev)
     | .error _ => True) := by
  have hrun := runEdges_chain (A := A) (E := E) edges ⟨[], none, []⟩
    (firstTime edges)
    (sortedFrom_of_chrono edges (firstTime edges) hs
      (by intro e1 he1
          match edges with
          | [] => cases he1
          | e :: es =>
            injection he1 with he1
            subst he1
            exact le_refl _))
    ⟨⟨List.chain'_nil, fun e he => by cases he⟩, rfl, rfl⟩
    (fun Ev hEv n hn => by cases hn)
  rw [genEventsCore]
  rcases hres : runEdges A E edges ⟨[], none, []⟩ with st | out | x
  · rw [hres] at hrun
    match merr with
    | some e => trivial
    | none => exact drain_chain hrun
  · rw [hres] at hrun
    exact hrun
  · trivial

theorem evChain_head_le :
    ∀ (t : List OutageEvent) (a : OutageEvent),
      List.Chain' (fun x y => x.stop ≤ y.start) (a :: t) →
      (∀ e ∈ a :: t, e.start ≤ e.stop) →
      ∀ b ∈ t, a.stop ≤ b.start := by
  intro t
  induction t with
  | nil => intro a _ _ b hb; cases hb
  | cons b t2 ih =>
    intro a hch hss c hc
    rw [List.chain'_cons] at hch
    rcases List.mem_cons.1 hc with h1 | h1
    · subst h1
      exact hch.1
    · have h2 : b.stop ≤ c.start := by
        refine ih b hch.2 ?_ c h1
        intro e he
        exact hss e (List.mem_cons_of_mem a he)
      have h3 : b.start ≤ b.stop :=
        hss b (List.mem_cons_of_mem a (List.mem_cons_self _ _))
      exact le_trans hch.1 (le_trans h3 h2)

theorem evChain_pairwise {l : List OutageEvent} (h : EvChain l) :
    l.Pairwise (fun a b => a.start ≤ b.start ∧ a.stop ≤ b.start) := by
  obtain ⟨hch, hss⟩ := h
  induction l with
  | nil => exact List.Pairwise.nil
  | cons a t ih =>
    refine List.Pairwise.cons ?_ ?_
    · intro b hb
      have h1 := evChain_head_le t a hch hss b hb
      have h2 : a.start ≤ a.stop := hss a (List.mem_cons_self _ _)
      exact ⟨le_trans h2 h1, h1⟩
    · exact ih ((List.chain'_cons'.1 hch).2)
        (fun e he => hss e (List.mem_cons_of_mem a he))

/-- C1 (amended): when the merged edge stream is chronologically ordered —
which holds for well-formed tables (each day's slots sorted, non-overlapping
and within the day) with exception records in chronological order — every
successful `get_events` query returns a list that is non-decreasing in
`start` and pairwise non-overlapping (each event ends no later than any
later event starts).  Without that ordering hypothesis the claim is false
(see the counterexample: exception records listed out of date order). -/
theorem c1_sorted_disjoint (api : YasnoOutagesApi) (A E : Int) (fuel : Nat)
    (l : List OutageEvent)
    (hs : ChronoSorted (mergedStream api A fuel).1)
    (h : getEvents api A E fuel = .ok l) :
    l.Pairwise (fun a b => a.start ≤ b.start ∧ a.stop ≤ b.start) ∧
    ∀ e ∈ l, e.start ≤ e.stop := by
  have hg := @genEventsCore_chain A (some E) (mergedStream api A fuel).1
    (mergedStream api A fuel).2 hs
  have heq : getEvents api A E fuel =
      genEventsCore A (some E) (mergedStream api A fuel).1
        (mergedStream api A fuel).2 := rfl
  rw [heq] at h
  rw [h] at hg
  exact ⟨evChain_pairwise hg.1, hg.1.2⟩

/-- C3 (corrected, amended): starts are not clipped to the query window —
the engine never floors an emitted `start` to `max(declared_start,
queryStart)` (see the counterexample).  What does hold: (a) every returned
event ends strictly after `start_date` (intervals with `end ≤ start_date`
are discarded), and (b) for chronologically ordered merged streams, once
the cursor passes `end_date` nothing further is yielded, so every returned
event except possibly the last ends by `end_date`. -/
theorem c3_window (api : YasnoOutagesApi) (A E : Int) (fuel : Nat)
    (l : List OutageEvent) (h : getEvents api A E fuel = .ok l) :
    (∀ e ∈ l, A < e.stop) ∧
    (ChronoSorted (mergedStream api A fuel).1 →
      ∀ x ∈ l.dropLast, x.stop ≤ E) := by
  have heq : getEvents api A E fuel =
      genEventsCore A (some E) (mergedStream api A fuel).1
        (mergedStream api A fuel).2 := rfl
  rw [heq] at h
  constructor
  · have ho := @genEventsCore_outOK A (some E) (mergedStream api A fuel).1
      (mergedStream api A fuel).2
    rw [h] at ho
    intro e he
    exact (ho e he).2
  · intro hs
    have hg := @genEventsCore_chain A (some E) (mergedStream api A fuel).1
      (mergedStream api A fuel).2 hs
    rw [h] at hg
    exact hg.2 E rfl

/-- C6 (confirmed): no returned event ever carries the blanking sentinel
label `"none"`: all three emission sites of `gen_events` (the pop loop, the
top-replacement on `open`, and the drain) are guarded by
`last["summary"] != "none"`.  In particular, exception-day time ranges
covered only by the priority-2 blanking layer — whose entries are the only
ones labelled `"none"` — are never emitted. -/
theorem c6_no_sentinel (api : YasnoOutagesApi) (A E : Int) (fuel : Nat)
    (l : List OutageEvent) (h : getEvents api A E fuel = .ok l) :
    ∀ e ∈ l, e.summary ≠ "none" := by
  have heq : getEvents api A E fuel =
      genEventsCore A (some E) (mergedStream api A fuel).1
        (mergedStream api A fuel).2 := rfl
  rw [heq] at h
  have ho := @genEventsCore_outOK A (some E) (mergedStream api A fuel).1
    (mergedStream api A fuel).2
  rw [h] at ho
  intro e he
  exact (ho e he).1

theorem chronoSortedB_iff :
    ∀ l : List Edge, chronoSortedB l = true ↔ ChronoSorted l := by
  intro l
  induction l with
  | nil => simp [chronoSortedB, ChronoSorted]
  | cons a t ih =>
    match t with
    | [] => simp [chronoSortedB, ChronoSorted]
    | b :: t2 =>
      rw [chronoSortedB, Bool.and_eq_true, decide_eq_true_eq, ih,
        ChronoSorted, ChronoSorted, List.chain'_cons]

/-- C1 counterexample: with the two exception days supplied in reverse date
order (dict iteration order of `dailySchedule[city]`), `get_events` returns
the second Monday's override before the first Monday's: the output is not
sorted by `start` (the spec's claim fails as stated, because `heapq.merge`
never reorders edges within one source stream). -/
theorem c1_counterexample :
    getEvents apiUnordered 0 20160 0 =
      .ok [⟨"x", 10620, 10680⟩, ⟨"y", 540, 600⟩] ∧
    ¬ ((⟨"x", 10620, 10680⟩ : OutageEvent).start ≤
       (⟨"y", 540, 600⟩ : OutageEvent).start) :=
  ⟨rfl, by decide⟩

/-- Witness for the amended C1 at a concrete well-formed weekly table. -/
theorem c1_witness :
    getEvents apiWednesday 0 20160 14 =
      .ok [⟨"x", 3420, 3780⟩, ⟨"x", 13500, 13860⟩] ∧
    ([⟨"x", 3420, 3780⟩, ⟨"x", 13500, 13860⟩] :
      List OutageEvent).Pairwise
        (fun a b => a.start ≤ b.start ∧ a.stop ≤ b.start) :=
  ⟨rfl,
   (c1_sorted_disjoint apiWednesday 0 20160 14
      [⟨"x", 3420, 3780⟩, ⟨"x", 13500, 13860⟩]
      ((chronoSortedB_iff _).1 rfl) rfl).1⟩

/-- C3 counterexample: querying `[Wed 12:00, Thu 00:00)` against a weekly
Wednesday 09:00-15:00 slot returns the slot with `start = Wed 09:00`,
not `max(declared_start, queryStart) = Wed 12:00`: emitted starts are never
floored to the query start (`gen_events` uses `start_date` only in the
`res["end"] > start_date` filter). -/
theorem c3_counterexample :
    getEvents apiWednesday 3600 4320 14 = .ok [⟨"x", 3420, 3780⟩] ∧
    (3420 : Int) ≠ max 3420 3600 :=
  ⟨rfl, by decide⟩

/-- Witness for the amended C3: both window facts at a concrete query. -/
theorem c3_witness :
    getEvents apiWednesday 3600 4320 14 = .ok [⟨"x", 3420, 3780⟩] ∧
    (3600 : Int) < 3780 :=
  ⟨rfl,
   (c3_window apiWednesday 3600 4320 14 [⟨"x", 3420, 3780⟩] rfl).1
     ⟨"x", 3420, 3780⟩ (by simp)⟩

/-- Witness for C6 at the override scenario: the returned labels are the
override and base labels, never the sentinel. -/
theorem c6_witness :
    getEvents apiOverride 0 1440 15 =
      .ok [⟨"maintenance", 0, 1440⟩, ⟨"outage", 10620, 10680⟩] ∧
    (⟨"maintenance", 0, 1440⟩ : OutageEvent).summary ≠ "none" :=
  ⟨rfl,
   c6_no_sentinel apiOverride 0 1440 15
     [⟨"maintenance", 0, 1440⟩, ⟨"outage", 10620, 10680⟩] rfl
     ⟨"maintenance", 0, 1440⟩ (by simp)⟩

set_option maxHeartbeats 1000000 in
/-- C7 counterexample: the spec's override scenario (base Monday 09:00-10:00
`"outage"`, full-day exception override `{0, 1440, "maintenance"}` on that
Monday, query `[Mon 00:00, Tue 00:00)`) does not return exactly one event:
a second, trailing base event from the following week — entirely beyond the
query window — is yielded just before the engine's `return` fires. -/
theorem c7_counterexample :
    getEvents apiOverride 0 1440 15 =
      .ok [⟨"maintenance", 0, 1440⟩, ⟨"outage", 10620, 10680⟩] ∧
    getEvents apiOverride 0 1440 15 ≠ .ok [⟨"maintenance", 0, 1440⟩] :=
  ⟨rfl, by decide⟩

/-- C7 (corrected): inside the exception day's span no priority-1 interval
from the weekly base is returned — only the full-day priority-3 override —
but the result is not the single event the claim states: one further
`"outage"` event, starting at the next week's Monday 09:00 (minute 10620,
after the whole queried day, `1440 ≤ 10620`), trails it. -/
theorem c7_override_result :
    getEvents apiOverride 0 1440 15 =
      .ok [⟨"maintenance", 0, 1440⟩, ⟨"outage", 10620, 10680⟩] ∧
    (1440 : Int) ≤ 10620 :=
  ⟨rfl, by decide⟩

/-- C9 counterexample: a daily schedule that is present but lacks the
configured city is not "no constraints": `self.daily_schedule[self.city]`
raises `KeyError`, which propagates out of `get_events`. -/
theorem c9_counterexample :
    apiNoCity.schedule = none ∧
    getEvents apiNoCity 0 1440 0 = .error .keyError :=
  ⟨rfl, rfl⟩

/-- C9 (corrected): only when `daily_schedule is None` is the exception
source silent; then, with the weekly table missing or empty for the
configured city/group (or the city/group unset), `get_events` returns `[]`.
A present daily schedule without the city key raises `KeyError` instead. -/
theorem c9_empty (api : YasnoOutagesApi) (A E : Int) (fuel : Nat)
    (hd : api.daily = none)
    (hw : truthyStr api.city = false ∨ truthyStr api.group = false ∨
          getGroupSchedule api = []) :
    getEvents api A E fuel = .ok [] := by
  have hexc : genExceptionEvents api A = ([], none) := by
    rw [genExceptionEvents, hd]
  have hrec : genScheduleRecurrentEvents api A fuel = ([], none) := by
    rw [genScheduleRecurrentEvents]
    rcases hw with h | h | h
    · rw [h]
      simp
    · rw [h]
      simp
    · split
      · rfl
      · rw [h]
  have hms : mergedStream api A fuel = ([], none) := by
    rw [mergedStream, hrec, hexc]
    rfl
  have : getEvents api A E fuel =
      genEventsCore A (some E) (mergedStream api A fuel).1
        (mergedStream api A fuel).2 := rfl
  rw [this, hms]
  rfl

/-- Witness for the amended C9: empty inputs give the empty list. -/
theorem c9_witness : getEvents apiEmptyCfg 0 1440 5 = .ok [] :=
  c9_empty apiEmptyCfg 0 1440 5 rfl (Or.inr (Or.inr rfl))

/-- C8 counterexample: a title whose date pattern matches but denotes an
impossible calendar date (`"40.13.5"`: month 13) is not skipped —
`datetime.replace` raises `ValueError`, the whole query dies, and the
following well-formed record (`"1.1.1"`) is never processed. -/
theorem c8_counterexample :
    getEvents apiBadDate 0 20160 0 = .error .valueError :=
  rfl

theorem genRecordsEdges_skip {r : ExRecord}
    (hr : searchDate r.title = none) :
    ∀ (pre post : List ExRecord) (g : Option String) (B : Int),
      genRecordsEdges g B (pre ++ r :: post) =
        genRecordsEdges g B (pre ++ post) := by
  intro pre
  induction pre with
  | nil =>
    intro post g B
    simp only [List.nil_append, genRecordsEdges, genRecordEdges, hr]
  | cons q pre2 ih =>
    intro post g B
    simp only [List.cons_append, genRecordsEdges, List.append_eq,
      ih post g B]

/-- C8 (corrected): a record whose title contains no `D.M.Y`-shaped digit
match is skipped (with a warning) and every other record is still
processed: dropping such a record from the city's record list leaves
`get_events` unchanged for every query.  The claim as stated is false for
"malformed" dates: a title that matches the pattern with an invalid
calendar date raises `ValueError` and kills the whole query (see the
counterexample). -/
theorem c8_skip_unmatched (api api2 : YasnoOutagesApi) (c : String)
    (d d2 : List (String × List (String × ExRecord)))
    (recs recs2 : List (String × ExRecord))
    (pre post : List ExRecord) (r : ExRecord)
    (hc : api.city = some c) (hd : api.daily = some d)
    (hrecs : assocGet c d = some recs)
    (hsplit : recs.map (fun x => x.2) = pre ++ r :: post)
    (hr : searchDate r.title = none)
    (hc2 : api2.city = api.city) (hg2 : api2.group = api.group)
    (hs2 : api2.schedule = api.schedule)
    (hd2 : api2.daily = some d2) (hrecs2 : assocGet c d2 = some recs2)
    (hsplit2 : recs2.map (fun x => x.2) = pre ++ post) :
    ∀ (A E : Int) (fuel : Nat),
      getEvents api A E fuel = getEvents api2 A E fuel := by
  intro A E fuel
  have hexc : genExceptionEvents api A = genExceptionEvents api2 A := by
    simp only [genExceptionEvents, hd, hd2, hc, hc2, hrecs, hrecs2, hg2]
    rw [hsplit, hsplit2, genRecordsEdges_skip hr pre post api.group A]
  have hgs : getGroupSchedule api2 = getGroupSchedule api := by
    simp only [getGroupSchedule, hs2, hc2, hg2]
  have hrec : genScheduleRecurrentEvents api2 A fuel =
      genScheduleRecurrentEvents api A fuel := by
    simp only [genScheduleRecurrentEvents, hc2, hg2, hgs]
  have hms : mergedStream api A fuel = mergedStream api2 A fuel := by
    rw [mergedStream, mergedStream, hrec, hexc]
  have h1 : getEvents api A E fuel =
      genEventsCore A (some E) (mergedStream api A fuel).1
        (mergedStream api A fuel).2 := rfl
  have h2 : getEvents api2 A E fuel =
      genEventsCore A (some E) (mergedStream api2 A fuel).1
        (mergedStream api2 A fuel).2 := rfl
  rw [h1, h2, hms]

/-- Witness for the amended C8: dropping the dateless record leaves the
query result unchanged. -/
theorem c8_witness :
    getEvents apiSkip1 0 1440 0 = getEvents apiSkip2 0 1440 0 :=
  c8_skip_unmatched apiSkip1 apiSkip2 "c" _ _ _ _ []
    [⟨"1.1.1", [("g", [⟨540, 600, "y"⟩])]⟩]
    ⟨"emergency shutdowns", [("g", [⟨0, 60, "z"⟩])]⟩
    rfl rfl rfl rfl rfl rfl rfl rfl rfl rfl rfl 0 1440 0

/-- C2 counterexample: with all slots well-formed, an exception record whose
`groups` mapping lacks the configured group (`"g"`) raises `KeyError` from
`ex["groups"][self.group]` inside `gen_exception_events`, and the exception
propagates out of `get_events` instead of being resolved by omission. -/
theorem c2_counterexample :
    getEvents apiNoGroup 0 1440 0 = .error .keyError :=
  rfl

/-! ## The suffix-window relation (claim C10): the machine's evolution is
independent of `start_date`, which only gates emission, so a later
`start_date` with the same anchor filters the output. -/

theorem filterStop_nil {B : Int} : filterStop B [] = [] := rfl

theorem filterStop_emit {A B en : Int} {c : Prop} [Decidable c]
    {acc : List OutageEvent} {s0 : String} {n0 : Int} (hAB : A ≤ B) :
    filterStop B (if c ∧ en > A then acc ++ [⟨s0, n0, en⟩] else acc) =
      (if c ∧ en > B then filterStop B acc ++ [⟨s0, n0, en⟩]
       else filterStop B acc) := by
  by_cases hc : c
  · by_cases hB : en > B
    · have hA : en > A := lt_of_le_of_lt hAB hB
      rw [if_pos (show c ∧ en > A from ⟨hc, hA⟩),
        if_pos (show c ∧ en > B from ⟨hc, hB⟩)]
      simp only [filterStop, List.filter_append]
      simp [hB]
    · rw [if_neg (show ¬ (c ∧ en > B) from fun h => hB h.2)]
      by_cases hA : en > A
      · rw [if_pos (show c ∧ en > A from ⟨hc, hA⟩)]
        simp only [filterStop, List.filter_append]
        simp [hB]
      · rw [if_neg (show ¬ (c ∧ en > A) from fun h => hA h.2)]
  · rw [if_neg (show ¬ (c ∧ en > A) from fun h => hc h.1),
      if_neg (show ¬ (c ∧ en > B) from fun h => hc h.1)]

theorem whilePop_filter {A B : Int} {E : Option Int} {p : Nat}
    (hAB : A ≤ B) :
    ∀ (stack : List (Option Entry)) (now : Int) (acc : List OutageEvent),
      whilePop B E p stack now (filterStop B acc) =
        (match whilePop A E p stack now acc with
         | .cont s n a => .cont s n (filterStop B a)
         | .halt a => .halt (filterStop B a)) := by
  intro stack
  induction stack with
  | nil =>
    intro now acc
    rw [whilePop_stop (by simp), whilePop_stop (by simp)]
  | cons hd tl ih =>
    intro now acc
    by_cases hle : (hd :: tl).length ≤ p
    · rw [whilePop_stop hle, whilePop_stop hle]
    · simp only [List.length_cons] at hle
      match hd with
      | none =>
        rw [whilePop_cons_none hle, whilePop_cons_none hle]
        exact ih now acc
      | some e =>
        match he : e.stop with
        | none =>
          rw [whilePop_cons_open hle he, whilePop_cons_open hle he]
        | some en =>
          by_cases hgt : en > now
          · rw [whilePop_cons_gt hle he hgt, whilePop_cons_gt hle he hgt]
            rw [← filterStop_emit (A := A) (B := B) hAB]
            by_cases hhc : haltCheck E en = true
            · rw [if_pos hhc, if_pos hhc]
            · rw [if_neg hhc, if_neg hhc]
              exact ih en _
          · rw [whilePop_cons_le hle he hgt, whilePop_cons_le hle he hgt]
            exact ih now acc

theorem pushAcc_filter {A B : Int} {e : Entry} {a now1 : Int}
    {acc1 : List OutageEvent} (hAB : A ≤ B) :
    filterStop B (pushAcc A e a now1 acc1) =
      pushAcc B e a now1 (filterStop B acc1) := by
  rw [pushAcc, pushAcc]
  set q : Bool := (!(e.summary = "none")) &&
    (match e.stop with
     | none => true
     | some en => decide (en > now1)) with hq
  set rs : Int := (match e.stop with
                   | some en => en
                   | none => a) with hrs
  by_cases hqb : q = true
  · rw [hqb]
    simp only [Bool.true_and]
    by_cases hB : rs > B
    · have hA : rs > A := lt_of_le_of_lt hAB hB
      rw [if_pos (decide_eq_true hA), if_pos (decide_eq_true hB)]
      simp only [filterStop, List.filter_append]
      simp [hB]
    · rw [if_neg (show ¬ (decide (rs > B) = true) from
        fun h => hB (of_decide_eq_true h))]
      by_cases hA : rs > A
      · rw [if_pos (decide_eq_true hA)]
        simp only [filterStop, List.filter_append]
        simp [hB]
      · rw [if_neg (show ¬ (decide (rs > A) = true) from
          fun h => hA (of_decide_eq_true h))]
  · rw [Bool.not_eq_true] at hqb
    rw [hqb]
    simp

theorem stepOpen_filter {A B : Int} {E : Option Int} {p : Nat} {t : String}
    {a : Int} {stack : List (Option Entry)} {now : Int}
    {acc : List OutageEvent} (hAB : A ≤ B) :
    stepOpen B E p t a stack now (filterStop B acc) =
      rrFilter B (stepOpen A E p t a stack now acc) := by
  have hwf := whilePop_filter (A := A) (B := B) (E := E) (p := p) hAB
    stack now acc
  rcases hres : whilePop A E p stack now acc with ⟨stack1, now1, acc1⟩ | acc1
  · rw [hres] at hwf
    by_cases hlt : p < stack1.length
    · rw [stepOpen_eq_skip hwf hlt, stepOpen_eq_skip hres hlt]
      rfl
    · match stack1 with
      | [] =>
        rw [stepOpen_eq_empty hwf, stepOpen_eq_empty hres]
        rfl
      | none :: tl =>
        rw [List.length_cons] at hlt
        rw [stepOpen_eq_noneTop hwf hlt, stepOpen_eq_noneTop hres hlt]
        rfl
      | some e :: tl =>
        rw [List.length_cons] at hlt
        by_cases hcond : ((!(e.summary = t)) ||
            (match e.stop with
             | some en => decide (en < a)
             | none => false)) = true
        · by_cases hhc : haltCheck E a = true
          · rw [stepOpen_eq_pushHalt hwf hlt hcond hhc,
              stepOpen_eq_pushHalt hres hlt hcond hhc]
            simp only [rrFilter, pushAcc_filter hAB]
          · rw [Bool.not_eq_true] at hhc
            rw [stepOpen_eq_push hwf hlt hcond hhc,
              stepOpen_eq_push hres hlt hcond hhc]
            simp only [rrFilter, pushAcc_filter hAB]
        · rw [Bool.not_eq_true] at hcond
          match hstop : e.stop with
          | none =>
            rw [stepOpen_eq_err hwf hlt hcond hstop,
              stepOpen_eq_err hres hlt hcond hstop]
            rfl
          | some en =>
            rw [stepOpen_eq_continue hwf hlt hcond hstop,
              stepOpen_eq_continue hres hlt hcond hstop]
            rfl
  · rw [hres] at hwf
    rw [stepOpen_eq_halt hwf, stepOpen_eq_halt hres]
    rfl

theorem stepEdge_filter {A B : Int} {E : Option Int} {st : MState}
    {ed : Edge} (hAB : A ≤ B) :
    stepEdge B E ⟨st.stack, st.now, filterStop B st.acc⟩ ed =
      rrFilter B (stepEdge A E st ed) := by
  cases ha : ed.action
  · simp only [stepEdge, ha]
    exact stepOpen_filter hAB
  · simp only [stepEdge, ha]
    rfl

theorem runEdges_filter {A B : Int} {E : Option Int} (hAB : A ≤ B) :
    ∀ (es : List Edge) (st : MState),
      runEdges B E es ⟨st.stack, st.now, filterStop B st.acc⟩ =
        rrFilter B (runEdges A E es st) := by
  intro es
  induction es with
  | nil => intro st; rfl
  | cons e es ih =>
    intro st
    rw [runEdges, runEdges, stepEdge_filter hAB]
    rcases hres : stepEdge A E st e with st2 | a2 | x
    · simp only [rrFilter]
      exact ih st2
    · rfl
    · rfl

theorem drainLoop_filter {A B : Int} {E : Option Int} (hAB : A ≤ B) :
    ∀ (stack : List (Option Entry)) (now : Int) (acc : List OutageEvent),
      drainLoop B E stack now (filterStop B acc) =
        (drainLoop A E stack now acc).map (filterStop B) := by
  intro stack
  induction stack with
  | nil => intro now acc; rfl
  | cons hd tl ih =>
    intro now acc
    match hd with
    | none =>
      rw [drainLoop, drainLoop]
      exact ih now acc
    | some e =>
      rw [drainLoop, drainLoop]
      match e.stop with
      | none => rfl
      | some en =>
        simp only
        by_cases hgt : en > now
        · rw [if_pos hgt, if_pos hgt,
            ← filterStop_emit (A := A) (B := B) hAB]
          by_cases hhc : haltCheck E en = true
          · rw [if_pos hhc, if_pos hhc]
            rfl
          · rw [if_neg hhc, if_neg hhc]
            exact ih en _
        · rw [if_neg hgt, if_neg hgt]
          exact ih now acc

theorem drain_filter {A B : Int} {E : Option Int} {st : MState}
    (hAB : A ≤ B) :
    drain B E ⟨st.stack, st.now, filterStop B st.acc⟩ =
      (drain A E st).map (filterStop B) := by
  rw [drain, drain]
  match st.stack with
  | [] => rfl
  | c :: tl =>
    simp only
    match st.now with
    | none => rfl
    | some n => exact drainLoop_filter hAB _ n _

theorem genEventsCore_filter {A B : Int} {E : Option Int} {es : List Edge}
    {merr : Option PyErr} (hAB : A ≤ B) :
    genEventsCore B E es merr =
      (genEventsCore A E es merr).map (filterStop B) := by
  rw [genEventsCore, genEventsCore]
  have h1 : runEdges B E es ⟨[], none, []⟩ =
      rrFilter B (runEdges A E es ⟨[], none, []⟩) :=
    runEdges_filter hAB es ⟨[], none, []⟩
  rw [h1]
  rcases hres : runEdges A E es ⟨[], none, []⟩ with st | a | x
  · simp only [rrFilter]
    match merr with
    | some e => rfl
    | none => exact drain_filter hAB
  · rfl
  · rfl

theorem buildEventHour_emod (N b m : Int) :
    buildEventHour (1440 * N + b % 1440) m =
      buildEventHour (1440 * N) m := by
  have hr0 : (0 : Int) ≤ b % 1440 := Int.emod_nonneg b (by norm_num)
  have hr1 : b % 1440 < 1440 := Int.emod_lt_of_pos b (by norm_num)
  have he : (1440 * N + b % 1440) / 1440 = N := by
    rw [add_comm, Int.add_mul_ediv_left _ _
      (by norm_num : (1440 : Int) ≠ 0)]
    rw [Int.ediv_eq_zero_of_lt hr0 hr1]
    ring
  have he2 : (1440 * N) / 1440 = N :=
    Int.mul_ediv_cancel_left _ (by norm_num : (1440 : Int) ≠ 0)
  rw [buildEventHour, buildEventHour, he, he2]

theorem genSlotEdges_congr {d1 d2 : Int} (p : Nat) (s : Slot)
    (h : ∀ m : Int, buildEventHour d1 m = buildEventHour d2 m) :
    genSlotEdges p d1 s = genSlotEdges p d2 s := by
  rw [genSlotEdges, genSlotEdges, h, h]

theorem genSlotsEdges_congr {d1 d2 : Int} (p : Nat)
    (h : ∀ m : Int, buildEventHour d1 m = buildEventHour d2 m) :
    ∀ sl : List Slot, genSlotsEdges p d1 sl = genSlotsEdges p d2 sl := by
  intro sl
  induction sl with
  | nil => rfl
  | cons s rest ih =>
    rw [genSlotsEdges, genSlotsEdges, genSlotEdges_congr p s h, ih]

theorem genRecordEdges_base (group : Option String) (A B : Int)
    (r : ExRecord) :
    genRecordEdges group A r = genRecordEdges group B r := by
  rcases hsd : searchDate r.title with _ | ⟨dd, mm, yy⟩
  · rw [genRecordEdges, genRecordEdges, hsd]
  · have hb : ∀ m : Int,
        buildEventHour (1440 * (daysFromCivil yy mm dd : Int) +
          A % 1440) m =
        buildEventHour (1440 * (daysFromCivil yy mm dd : Int) +
          B % 1440) m :=
      fun m => (buildEventHour_emod _ A m).trans
        (buildEventHour_emod _ B m).symm
    have hs := genSlotsEdges_congr 3 hb
    rw [genRecordEdges, genRecordEdges, hsd]
    simp only [hb, hs]

theorem genRecordsEdges_base (group : Option String) (A B : Int) :
    ∀ recs : List ExRecord,
      genRecordsEdges group A recs = genRecordsEdges group B recs := by
  intro recs
  induction recs with
  | nil => rfl
  | cons r rest ih =>
    rw [genRecordsEdges, genRecordsEdges, genRecordEdges_base group A B r,
      ih]

theorem genExceptionEvents_base (api : YasnoOutagesApi) (A B : Int) :
    genExceptionEvents api A = genExceptionEvents api B := by
  rw [genExceptionEvents, genExceptionEvents]
  match api.daily with
  | none => rfl
  | some d =>
    simp only
    match api.city with
    | none => rfl
    | some c =>
      simp only
      match assocGet c d with
      | none => rfl
      | some recs => exact genRecordsEdges_base api.group A B _

theorem genScheduleRecurrentEvents_anchor (api : YasnoOutagesApi)
    {A B : Int} (fuel : Nat) (h : anchorOf A = anchorOf B) :
    genScheduleRecurrentEvents api A fuel =
      genScheduleRecurrentEvents api B fuel := by
  rw [genScheduleRecurrentEvents, genScheduleRecurrentEvents, h]

/-- C10 (corrected): concatenating `[A,B)` and `[B,C)` does not equal
`[A,C)` — an event extending beyond `B` is returned whole by both window
queries, duplicated, never split (see the counterexample).  What holds
instead: the machine's evolution is independent of `start_date`, which only
gates emission, so when `A` and `B` share the same Monday-aligned anchor,
`get_events(B, C)` is exactly `get_events(A, C)` restricted to the events
ending after `B`. -/
theorem c10_filter (api : YasnoOutagesApi) (A B C : Int) (fuel : Nat)
    (hAB : A ≤ B) (hanchor : anchorOf A = anchorOf B) :
    getEvents api B C fuel =
      (getEvents api A C fuel).map (filterStop B) := by
  have hms : mergedStream api B fuel = mergedStream api A fuel := by
    rw [mergedStream, mergedStream,
      genExceptionEvents_base api B A,
      genScheduleRecurrentEvents_anchor api fuel hanchor.symm]
  have h1 : getEvents api B C fuel =
      genEventsCore B (some C) (mergedStream api B fuel).1
        (mergedStream api B fuel).2 := rfl
  have h2 : getEvents api A C fuel =
      genEventsCore A (some C) (mergedStream api A fuel).1
        (mergedStream api A fuel).2 := rfl
  rw [h1, h2, hms, genEventsCore_filter hAB]

set_option maxHeartbeats 1000000 in
/-- C10 counterexample: with the override scenario and `A = Mon 00:00`,
`B = Tue 00:00`, `C = Wed 00:00`, both window queries return the trailing
next-week `"outage"` event whole, so the concatenation duplicates it and is
not the `[A,C)` result, nor that result with one interval split at `B`. -/
theorem c10_counterexample :
    getEvents apiOverride 0 1440 15 =
      .ok [⟨"maintenance", 0, 1440⟩, ⟨"outage", 10620, 10680⟩] ∧
    getEvents apiOverride 1440 2880 15 =
      .ok [⟨"outage", 10620, 10680⟩] ∧
    getEvents apiOverride 0 2880 15 =
      .ok [⟨"maintenance", 0, 1440⟩, ⟨"outage", 10620, 10680⟩] ∧
    concatMatches 1440
      ([⟨"maintenance", 0, 1440⟩, ⟨"outage", 10620, 10680⟩] ++
        [⟨"outage", 10620, 10680⟩])
      [⟨"maintenance", 0, 1440⟩, ⟨"outage", 10620, 10680⟩] = false :=
  ⟨rfl, rfl, rfl, by decide⟩

set_option maxHeartbeats 1000000 in
/-- Witness for the amended C10 at the override scenario. -/
theorem c10_witness :
    getEvents apiOverride 1440 2880 15 =
      (getEvents apiOverride 0 2880 15).map (filterStop 1440) :=
  c10_filter apiOverride 0 1440 2880 15 (by decide) (by decide)

/-! ## Merge-order tie-break (claim C4) -/

theorem keyLE_trans {a b c : Int × Int} (h1 : keyLE a b = true)
    (h2 : keyLE b c = true) : keyLE a c = true := by
  simp only [keyLE, Bool.or_eq_true, Bool.and_eq_true, decide_eq_true_eq]
    at h1 h2 ⊢
  omega

theorem keyLE_total {a b : Int × Int} (h : keyLE a b = false) :
    keyLE b a = true := by
  have h1 : ¬ (a.1 < b.1) := by
    intro hh
    rw [keyLE] at h
    simp [hh] at h
  have h2 : ¬ (a.1 = b.1 ∧ a.2 ≤ b.2) := by
    intro hh
    rw [keyLE] at h
    simp [hh.1, hh.2] at h
  rw [keyLE]
  simp only [Bool.or_eq_true, Bool.and_eq_true, decide_eq_true_eq]
  by_cases he : a.1 = b.1
  · right
    refine ⟨he.symm, ?_⟩
    by_contra hb2
    exact h2 ⟨he, by omega⟩
  · left
    omega

theorem kSortedFromB_weaken {k1 k2 : Int × Int} {l : List Edge}
    (hk : keyLE k1 k2 = true) (h : kSortedFromB k2 l = true) :
    kSortedFromB k1 l = true := by
  match l with
  | [] => rfl
  | e :: es =>
    rw [kSortedFromB, Bool.and_eq_true] at h ⊢
    exact ⟨keyLE_trans hk h.1, h.2⟩

theorem merge2Aux_ksorted :
    ∀ (n : Nat) (xs : List Edge) (xe : Option PyErr) (ys : List Edge)
      (ye : Option PyErr) (k : Int × Int),
      xs.length + ys.length ≤ n →
      kSortedFromB k xs = true → kSortedFromB k ys = true →
      kSortedFromB k (merge2Aux n xs xe ys ye).1 = true := by
  intro n
  induction n with
  | zero =>
    intro xs xe ys ye k hlen hx hy
    match xs, ys with
    | [], [] =>
      match xe with
      | none => exact hy
      | some e => rfl
    | [], y :: ys =>
      match xe with
      | none => exact hy
      | some e => rfl
    | x :: xs, [] =>
      match ye with
      | none => exact hx
      | some e => rfl
    | x :: xs, y :: ys => simp at hlen
  | succ n ih =>
    intro xs xe ys ye k hlen hx hy
    match xs, ys with
    | [], [] =>
      match xe with
      | none => exact hy
      | some e => rfl
    | [], y :: ys =>
      match xe with
      | none => exact hy
      | some e => rfl
    | x :: xs, [] =>
      match ye with
      | none => exact hx
      | some e => rfl
    | x :: xs, y :: ys =>
      rw [kSortedFromB, Bool.and_eq_true] at hx hy
      rw [merge2Aux]
      by_cases hcmp : keyLE (edgeKey x) (edgeKey y) = true
      · rw [if_pos hcmp]
        rcases hres : merge2Aux n xs xe (y :: ys) ye with ⟨r, err⟩
        simp only
        rw [kSortedFromB, Bool.and_eq_true]
        refine ⟨hx.1, ?_⟩
        have := ih xs xe (y :: ys) ye (edgeKey x)
          (by simp at hlen ⊢; omega) hx.2
          (by rw [kSortedFromB, Bool.and_eq_true]
              exact ⟨hcmp, hy.2⟩)
        rw [hres] at this
        exact this
      · rw [if_neg hcmp]
        rw [Bool.not_eq_true] at hcmp
        have hyx := keyLE_total hcmp
        rcases hres : merge2Aux n (x :: xs) xe ys ye with ⟨r, err⟩
        simp only
        rw [kSortedFromB, Bool.and_eq_true]
        refine ⟨hy.1, ?_⟩
        have := ih (x :: xs) xe ys ye (edgeKey y)
          (by simp at hlen ⊢; omega)
          (by rw [kSortedFromB, Bool.and_eq_true]
              exact ⟨hyx, hx.2⟩) hy.2
        rw [hres] at this
        exact this

theorem kSortedFromB_all {l : List Edge} :
    ∀ {k : Int × Int}, kSortedFromB k l = true →
      ∀ b ∈ l, keyLE k (edgeKey b) = true := by
  induction l with
  | nil => intro k _ b hb; cases hb
  | cons f fs ih =>
    intro k h b hb
    rw [kSortedFromB, Bool.and_eq_true] at h
    rcases List.mem_cons.1 hb with h1 | h1
    · subst h1
      exact h.1
    · exact keyLE_trans h.1 (ih h.2 b h1)

theorem ksorted_pairwise {l : List Edge} :
    ∀ {k : Int × Int}, kSortedFromB k l = true →
      l.Pairwise (fun a b => keyLE (edgeKey a) (edgeKey b) = true) := by
  induction l with
  | nil => intro k _; exact List.Pairwise.nil
  | cons e es ih =>
    intro k h
    rw [kSortedFromB, Bool.and_eq_true] at h
    exact List.Pairwise.cons (kSortedFromB_all h.2) (ih h.2)

/-- C4 (corrected, amended): when each source stream is itself sorted by
the merge key `(at, priority if close else -priority)` (bounded below by a
common seed `k₀`), every same-timestamp pair in the merged stream is
ordered with opens by descending priority and closes by ascending
priority.  The streams as generated violate this premise — and the claim —
whenever an override slot starts at its day's midnight: the day-open
(priority 2) is yielded before the slot's open (priority 3) at the same
timestamp, and `heapq.merge` never reorders edges of one stream (see the
counterexample). -/
theorem c4_merge_order (xs ys : List Edge) (xe ye : Option PyErr)
    (k0 : Int × Int) (hx : kSortedFromB k0 xs = true)
    (hy : kSortedFromB k0 ys = true) :
    (merge2 xs xe ys ye).1.Pairwise (fun a b => a.time = b.time →
      ((a.action = .aopen → b.action = .aopen → b.priority ≤ a.priority) ∧
       (a.action = .aclose → b.action = .aclose →
         a.priority ≤ b.priority))) := by
  have hs := merge2Aux_ksorted (xs.length + ys.length) xs xe ys ye k0
    (le_refl _) hx hy
  have hp := ksorted_pairwise hs
  refine List.Pairwise.imp ?_ hp
  intro a b hk ht
  simp only [keyLE, Bool.or_eq_true, Bool.and_eq_true, decide_eq_true_eq,
    edgeKey, ht] at hk
  constructor
  · intro ha hb
    rw [ha, hb] at hk
    simp only at hk
    omega
  · intro ha hb
    rw [ha, hb] at hk
    simp only at hk
    omega

/-- C4 counterexample: in the merged stream of the override scenario the
first two edges share timestamp 0 and are both opens, ordered priority 2
then priority 3 — ascending, not the claimed descending order — because
the exception source yields the day-open before a slot opening at the same
midnight and the merge preserves within-stream order. -/
theorem c4_counterexample :
    (mergedStream apiOverride 0 15).1.get? 0 =
      some ⟨0, 2, .aopen, "none"⟩ ∧
    (mergedStream apiOverride 0 15).1.get? 1 =
      some ⟨0, 3, .aopen, "maintenance"⟩ ∧
    ¬ ((3 : Nat) ≤ 2) :=
  ⟨rfl, rfl, by decide⟩

/-- Witness for the amended C4 on two concrete key-sorted streams. -/
theorem c4_witness :
    kSortedFromB ((-1 : Int), (-10 : Int))
      [⟨0, 1, .aopen, "a"⟩, ⟨60, 1, .aclose, "a"⟩] = true ∧
    (merge2 [⟨0, 1, .aopen, "a"⟩, ⟨60, 1, .aclose, "a"⟩] none
      [⟨0, 2, .aopen, "b"⟩] none).1.Pairwise (fun a b => a.time = b.time →
      ((a.action = .aopen → b.action = .aopen → b.priority ≤ a.priority) ∧
       (a.action = .aclose → b.action = .aclose →
         a.priority ≤ b.priority))) :=
  ⟨rfl,
   c4_merge_order [⟨0, 1, .aopen, "a"⟩, ⟨60, 1, .aclose, "a"⟩]
     [⟨0, 2, .aopen, "b"⟩] none none ((-1 : Int), (-10 : Int)) rfl rfl⟩

/-! ## Week-rollover continuity (claim C5) -/

theorem buildEventHour_ok {day m : Int} (h0 : 0 ≤ m) (h1 : m ≤ 1440) :
    buildEventHour day m = .ok (1440 * (day / 1440) + m) := by
  rw [buildEventHour]
  by_cases he : m = 1440
  · rw [if_pos he, he]
  · rw [if_neg he, if_pos ⟨h0, by omega⟩]

set_option maxHeartbeats 1000000 in
theorem c5_stream {L : String} {s e : Int} (hs0 : 0 ≤ s) (hs1 : s < 1440)
    (he0 : 0 < e) (he1 : e ≤ 1440) :
    mergedStream (apiRollover L s e) 0 14 =
      ([⟨0, 1, .aopen, L⟩, ⟨e, 1, .aclose, L⟩,
        ⟨8640 + s, 1, .aopen, L⟩, ⟨10080, 1, .aclose, L⟩,
        ⟨10080, 1, .aopen, L⟩, ⟨10080 + e, 1, .aclose, L⟩,
        ⟨18720 + s, 1, .aopen, L⟩, ⟨20160, 1, .aclose, L⟩], none) := by
  have hb1 : buildEventHour 0 e = .ok e := by
    rw [buildEventHour_ok (le_of_lt he0) he1]
    norm_num
  have hb2 : buildEventHour 8640 s = .ok (8640 + s) := by
    rw [buildEventHour_ok hs0 (le_of_lt hs1)]
    norm_num
  have hb3 : buildEventHour 10080 e = .ok (10080 + e) := by
    rw [buildEventHour_ok (le_of_lt he0) he1]
    norm_num
  have hb4 : buildEventHour 18720 s = .ok (18720 + s) := by
    rw [buildEventHour_ok hs0 (le_of_lt hs1)]
    norm_num
  have hb0 : buildEventHour 0 0 = .ok 0 := rfl
  have hb6 : buildEventHour 8640 1440 = .ok 10080 := rfl
  have hb7 : buildEventHour 10080 0 = .ok 10080 := rfl
  have hb13 : buildEventHour 18720 1440 = .ok 20160 := rfl
  have hexc : genExceptionEvents (apiRollover L s e) 0 = ([], none) := rfl
  have hrec : genScheduleRecurrentEvents (apiRollover L s e) 0 14 =
      ([⟨0, 1, .aopen, L⟩, ⟨e, 1, .aclose, L⟩,
        ⟨8640 + s, 1, .aopen, L⟩, ⟨10080, 1, .aclose, L⟩,
        ⟨10080, 1, .aopen, L⟩, ⟨10080 + e, 1, .aclose, L⟩,
        ⟨18720 + s, 1, .aopen, L⟩, ⟨20160, 1, .aclose, L⟩], none) := by
    have h0 : genScheduleRecurrentEvents (apiRollover L s e) 0 14 =
        genWeekDaysAux [[⟨0, e, L⟩], [], [], [], [], [], [⟨s, 1440, L⟩]]
          0 0 14 := rfl
    rw [h0]
    norm_num [genWeekDaysAux, genSlotsEdges, genSlotEdges, List.getD,
      hb0, hb1, hb2, hb3, hb4, hb6, hb7, hb13]
  simp only [mergedStream]
  rw [hrec, hexc]
  rfl

/-- One step of the edge loop when the step continues. -/
theorem runEdges_cons_cont {A : Int} {E : Option Int} {ed : Edge}
    {es : List Edge} {st st2 : MState}
    (h : stepEdge A E st ed = .cont st2) :
    runEdges A E (ed :: es) st = runEdges A E es st2 := by
  simp only [runEdges, h]

/-- One step of the edge loop when the step returns early. -/
theorem runEdges_cons_halt {A : Int} {E : Option Int} {ed : Edge}
    {es : List Edge} {st : MState} {a : List OutageEvent}
    (h : stepEdge A E st ed = .halt a) :
    runEdges A E (ed :: es) st = .halt a := by
  simp only [runEdges, h]

set_option maxHeartbeats 1000000 in
/-- Claim C5, confirmed (week-rollover continuity).  A weekly slot spanning
the week boundary, written as two table entries with the same label `L` —
Sunday `s`–24:00 and Monday 00:00–`e` — is returned by
`get_events(Mon 00:00, Sun 23:59)` as one single continuous event
`[8640+s, 10080+e)` crossing the Sunday/Monday boundary at minute 10080,
not as two adjacent events split there: at the boundary the close of the
Sunday half coincides with the open of the identical still-open Monday
half, and the machine's continuation branch deletes the pending end
instead of splitting.  (The Monday slot of the query's own week also
yields its event `[0, e)`.) -/
theorem c5_rollover_single {L : String} {s e : Int} (hL : L ≠ "none")
    (hs0 : 0 ≤ s) (hs1 : s < 1440) (he0 : 0 < e) (he1 : e ≤ 1440) :
    getEvents (apiRollover L s e) 0 10079 14 =
      .ok [⟨L, 0, e⟩, ⟨L, 8640 + s, 10080 + e⟩] := by
  have dLL : decide (L = L) = true := decide_eq_true rfl
  have dLn : decide (L = "none") = false := decide_eq_false hL
  have hres3 : whilePop 0 (some 10079) 1 [some ⟨L, 0, some e⟩] 0 [] =
      .cont (some ⟨L, 0, some e⟩ :: []) 0 [] := whilePop_stop (by simp)
  have hcond3 : ((!decide (L = L)) || decide (e < 8640 + s)) = true := by
    rw [decide_eq_true (show e < 8640 + s by omega), Bool.or_true]
  have hhc3 : haltCheck (some 10079) (8640 + s) = false := by
    show decide (8640 + s > (10079 : Int)) = false
    exact decide_eq_false (by omega)
  have h3 : stepEdge 0 (some 10079) ⟨[some ⟨L, 0, some e⟩], some 0, []⟩
      ⟨8640 + s, 1, .aopen, L⟩ =
      .cont ⟨[some ⟨L, 8640 + s, none⟩], some (8640 + s),
             pushAcc 0 ⟨L, 0, some e⟩ (8640 + s) 0 []⟩ :=
    stepOpen_eq_push hres3 (by simp) hcond3 hhc3
  have hpa3 : pushAcc 0 ⟨L, 0, some e⟩ (8640 + s) 0 [] = [⟨L, 0, e⟩] := by
    simp only [pushAcc, dLn]
    rw [decide_eq_true (show e > 0 from he0)]
    simp
  have e3f : stepEdge 0 (some 10079) ⟨[some ⟨L, 0, some e⟩], some 0, []⟩
      ⟨8640 + s, 1, .aopen, L⟩ =
      .cont ⟨[some ⟨L, 8640 + s, none⟩], some (8640 + s), [⟨L, 0, e⟩]⟩ := by
    rw [h3, hpa3]
  have hres5 : whilePop 0 (some 10079) 1 [some ⟨L, 8640 + s, some 10080⟩]
      (8640 + s) [⟨L, 0, e⟩] =
      .cont (some ⟨L, 8640 + s, some 10080⟩ :: []) (8640 + s) [⟨L, 0, e⟩] :=
    whilePop_stop (by simp)
  have hcond5 : ((!decide (L = L)) || decide ((10080 : Int) < 10080)) =
      false := by
    rw [dLL]
    decide
  have e5 : stepEdge 0 (some 10079)
      ⟨[some ⟨L, 8640 + s, some 10080⟩], some (8640 + s), [⟨L, 0, e⟩]⟩
      ⟨10080, 1, .aopen, L⟩ =
      .cont ⟨[some ⟨L, 8640 + s, none⟩], some (8640 + s), [⟨L, 0, e⟩]⟩ :=
    stepOpen_eq_continue hres5 (by simp) hcond5 rfl
  have hres7 : whilePop 0 (some 10079) 1
      [some ⟨L, 8640 + s, some (10080 + e)⟩] (8640 + s) [⟨L, 0, e⟩] =
      .cont (some ⟨L, 8640 + s, some (10080 + e)⟩ :: []) (8640 + s)
        [⟨L, 0, e⟩] := whilePop_stop (by simp)
  have hcond7 : ((!decide (L = L)) || decide (10080 + e < 18720 + s)) =
      true := by
    rw [decide_eq_true (show 10080 + e < 18720 + s by omega), Bool.or_true]
  have hhc7 : haltCheck (some 10079) (18720 + s) = true := by
    show decide (18720 + s > (10079 : Int)) = true
    exact decide_eq_true (by omega)
  have e7 : stepEdge 0 (some 10079)
      ⟨[some ⟨L, 8640 + s, some (10080 + e)⟩], some (8640 + s), [⟨L, 0, e⟩]⟩
      ⟨18720 + s, 1, .aopen, L⟩ =
      .halt (pushAcc 0 ⟨L, 8640 + s, some (10080 + e)⟩ (18720 + s) (8640 + s)
             [⟨L, 0, e⟩]) :=
    stepOpen_eq_pushHalt hres7 (by simp) hcond7 hhc7
  have hpa7 : pushAcc 0 ⟨L, 8640 + s, some (10080 + e)⟩ (18720 + s)
      (8640 + s) [⟨L, 0, e⟩] = [⟨L, 0, e⟩, ⟨L, 8640 + s, 10080 + e⟩] := by
    simp only [pushAcc, dLn]
    rw [decide_eq_true (show 10080 + e > 8640 + s by omega),
        decide_eq_true (show (10080 + e : Int) > 0 by omega)]
    simp
  have e7f : stepEdge 0 (some 10079)
      ⟨[some ⟨L, 8640 + s, some (10080 + e)⟩], some (8640 + s), [⟨L, 0, e⟩]⟩
      ⟨18720 + s, 1, .aopen, L⟩ =
      .halt [⟨L, 0, e⟩, ⟨L, 8640 + s, 10080 + e⟩] := by
    rw [e7, hpa7]
  have hrun : runEdges 0 (some 10079)
      [⟨0, 1, .aopen, L⟩, ⟨e, 1, .aclose, L⟩,
       ⟨8640 + s, 1, .aopen, L⟩, ⟨10080, 1, .aclose, L⟩,
       ⟨10080, 1, .aopen, L⟩, ⟨10080 + e, 1, .aclose, L⟩,
       ⟨18720 + s, 1, .aopen, L⟩, ⟨20160, 1, .aclose, L⟩]
      ⟨[], none, []⟩ = .halt [⟨L, 0, e⟩, ⟨L, 8640 + s, 10080 + e⟩] := by
    rw [runEdges_cons_cont
          (show stepEdge 0 (some 10079) ⟨[], none, []⟩ ⟨0, 1, .aopen, L⟩ =
            .cont ⟨[some ⟨L, 0, none⟩], some 0, []⟩ from rfl),
        runEdges_cons_cont
          (show stepEdge 0 (some 10079) ⟨[some ⟨L, 0, none⟩], some 0, []⟩
              ⟨e, 1, .aclose, L⟩ =
            .cont ⟨[some ⟨L, 0, some e⟩], some 0, []⟩ from rfl),
        runEdges_cons_cont e3f,
        runEdges_cons_cont
          (show stepEdge 0 (some 10079)
              ⟨[some ⟨L, 8640 + s, none⟩], some (8640 + s), [⟨L, 0, e⟩]⟩
              ⟨10080, 1, .aclose, L⟩ =
            .cont ⟨[some ⟨L, 8640 + s, some 10080⟩], some (8640 + s),
                   [⟨L, 0, e⟩]⟩ from rfl),
        runEdges_cons_cont e5,
        runEdges_cons_cont
          (show stepEdge 0 (some 10079)
              ⟨[some ⟨L, 8640 + s, none⟩], some (8640 + s), [⟨L, 0, e⟩]⟩
              ⟨10080 + e, 1, .aclose, L⟩ =
            .cont ⟨[some ⟨L, 8640 + s, some (10080 + e)⟩], some (8640 + s),
                   [⟨L, 0, e⟩]⟩ from rfl),
        runEdges_cons_halt e7f]
  have hstream := c5_stream (L := L) hs0 hs1 he0 he1
  have h1 : getEvents (apiRollover L s e) 0 10079 14 =
      genEventsCore 0 (some 10079) (mergedStream (apiRollover L s e) 0 14).1
        (mergedStream (apiRollover L s e) 0 14).2 := rfl
  rw [h1, hstream]
  show genEventsCore 0 (some 10079)
      [⟨0, 1, .aopen, L⟩, ⟨e, 1, .aclose, L⟩,
       ⟨8640 + s, 1, .aopen, L⟩, ⟨10080, 1, .aclose, L⟩,
       ⟨10080, 1, .aopen, L⟩, ⟨10080 + e, 1, .aclose, L⟩,
       ⟨18720 + s, 1, .aopen, L⟩, ⟨20160, 1, .aclose, L⟩] none =
    Except.ok [⟨L, 0, e⟩, ⟨L, 8640 + s, 10080 + e⟩]
  simp only [genEventsCore, hrun]

/-- Closed instance of the week-rollover theorem: label `"x"`, Sunday
23:00–24:00 plus Monday 00:00–01:00 give the single events list
`[[0,60), [10020, 10140)]`. -/
theorem c5_rollover_witness :
    getEvents (apiRollover "x" 1380 60) 0 10079 14 =
      .ok [⟨"x", 0, 60⟩, ⟨"x", 8640 + 1380, 10080 + 60⟩] :=
  c5_rollover_single (by decide) (by decide) (by decide) (by decide)
    (by decide)

/-- Levels below the length of a cons are levels of the tail. -/
theorem lvl_cons_lt {c : Option Entry} {tl : List (Option Entry)} {j : Nat}
    (h : j < tl.length) : lvl (c :: tl) j = lvl tl j := by
  simp only [lvl, List.reverse_cons]
  exact List.get?_append (by simpa using h)

/-- The head of the (top-first) stack is its highest level. -/
theorem lvl_cons_self {c : Option Entry} {tl : List (Option Entry)} :
    lvl (c :: tl) tl.length = some c := by
  simp only [lvl, List.reverse_cons]
  rw [List.get?_append_right (by simp)]
  simp

/-- Out-of-range levels are absent. -/
theorem lvl_ge {stk : List (Option Entry)} {j : Nat}
    (h : stk.length ≤ j) : lvl stk j = none := by
  simp only [lvl]
  exact List.get?_eq_none.mpr (by simpa using h)

/-- A present level is in range. -/
theorem lvl_lt {stk : List (Option Entry)} {j : Nat} {c : Option Entry}
    (h : lvl stk j = some c) : j < stk.length := by
  by_contra hj
  rw [lvl_ge (by omega)] at h
  exact Option.noConfusion h

/-- A (top-first) suffix of the stack keeps the bottom levels. -/
theorem lvl_suffix {stk1 stk : List (Option Entry)} {j : Nat}
    (h : stk1 <:+ stk) (hj : j < stk1.length) : lvl stk1 j = lvl stk j := by
  obtain ⟨t, rfl⟩ := h
  simp only [lvl, List.reverse_append]
  rw [List.get?_append (by simpa using hj)]

/-- Shape of the pop loop's outcome: unless it returns early, the surviving
stack is a (top-first) suffix of the input, the loop stopped either at or
below the target priority or at an open top, and no open entry was popped. -/
theorem whilePop_safe {A : Int} {E : Option Int} {p : Nat} :
    ∀ (stk : List (Option Entry)) (now : Int) (acc : List OutageEvent),
      match whilePop A E p stk now acc with
      | .halt _ => True
      | .cont stk1 _ _ =>
          stk1 <:+ stk ∧
          (stk1.length ≤ p ∨
           ∃ e tl, stk1 = some e :: tl ∧ e.stop = none ∧ p < tl.length + 1) ∧
          (∀ j e, lvl stk j = some (some e) → e.stop = none →
            j < stk1.length) := by
  intro stk
  induction stk with
  | nil =>
    intro now acc
    rw [whilePop_stop (by simp)]
    exact ⟨List.suffix_refl _, Or.inl (by simp),
      fun j e hj _ => lvl_lt hj⟩
  | cons hd tl ih =>
    intro now acc
    by_cases hle : (hd :: tl).length ≤ p
    · rw [whilePop_stop hle]
      exact ⟨List.suffix_refl _, Or.inl hle, fun j e hj _ => lvl_lt hj⟩
    · simp only [List.length_cons] at hle
      have htrans : ∀ s1 : List (Option Entry), s1 <:+ tl → s1 <:+ hd :: tl :=
        fun s1 h => h.trans (List.suffix_cons hd tl)
      have htop : ∀ (s1 : List (Option Entry)),
          (∀ j e, lvl tl j = some (some e) → e.stop = none →
            j < s1.length) →
          (∀ e, lvl (hd :: tl) tl.length = some (some e) →
            e.stop ≠ none) →
          ∀ j e, lvl (hd :: tl) j = some (some e) → e.stop = none →
            j < s1.length := by
        intro s1 hs hhd j e hj hopen
        rcases Nat.lt_trichotomy j tl.length with h1 | h1 | h1
        · exact hs j e (by rw [← lvl_cons_lt h1]; exact hj) hopen
        · exact absurd hopen (hhd e (h1 ▸ hj))
        · have := lvl_lt hj
          simp only [List.length_cons] at this
          omega
      match hd with
      | none =>
        rw [whilePop_cons_none hle]
        have h := ih now acc
        revert h
        cases hw : whilePop A E p tl now acc with
        | halt a => intro h; trivial
        | cont s1 n1 a1 =>
          intro h
          obtain ⟨hs, hd2, hsv⟩ := h
          refine ⟨htrans s1 hs, hd2, htop s1 hsv ?_⟩
          intro e hj
          rw [lvl_cons_self] at hj
          exact absurd (Option.some.inj hj) (by simp)
      | some e' =>
        cases hstop : e'.stop with
        | none =>
          rw [whilePop_cons_open hle hstop]
          exact ⟨List.suffix_refl _,
            Or.inr ⟨e', tl, rfl, hstop, by omega⟩,
            fun j e hj _ => lvl_lt hj⟩
        | some en =>
          have hhd : ∀ e, lvl (some e' :: tl) tl.length = some (some e) →
              e.stop ≠ none := by
            intro e hj
            rw [lvl_cons_self] at hj
            have : e' = e := Option.some.inj (Option.some.inj hj)
            rw [← this, hstop]
            exact fun h => Option.noConfusion h
          by_cases hgt : en > now
          · rw [whilePop_cons_gt hle hstop hgt]
            by_cases hhc : haltCheck E en
            · rw [if_pos hhc]
              trivial
            · rw [if_neg hhc]
              have h := ih en (if e'.summary ≠ "none" ∧ en > A
                               then acc ++ [⟨e'.summary, now, en⟩] else acc)
              revert h
              cases hw : whilePop A E p tl en
                  (if e'.summary ≠ "none" ∧ en > A
                   then acc ++ [⟨e'.summary, now, en⟩] else acc) with
              | halt a => intro h; trivial
              | cont s1 n1 a1 =>
                intro h
                obtain ⟨hs, hd2, hsv⟩ := h
                exact ⟨htrans s1 hs, hd2, htop s1 hsv hhd⟩
          · rw [whilePop_cons_le hle hstop hgt]
            have h := ih now acc
            revert h
            cases hw : whilePop A E p tl now acc with
            | halt a => intro h; trivial
            | cont s1 n1 a1 =>
              intro h
              obtain ⟨hs, hd2, hsv⟩ := h
              exact ⟨htrans s1 hs, hd2, htop s1 hsv hhd⟩

/-- Bottom-indexed view in terms of the raw list. -/
theorem lvl_eq_get {stk : List (Option Entry)} {i : Nat}
    (h : i < stk.length) : lvl stk i = stk.get? (stk.length - 1 - i) := by
  simp only [lvl]
  exact List.get?_reverse (by simpa using h)

/-- `setLevel` leaves the stack alone when the target level holds no entry. -/
theorem setLevel_id {p : Nat} {v : Int} {t : List (Option Entry)}
    (h : ∀ e : Entry, lvl t (p - 1) ≠ some (some e)) :
    setLevel p v t = t := by
  rw [setLevel]
  by_cases hc : 1 ≤ p ∧ p ≤ t.length
  · rw [if_pos hc]
    have hidx : t.get? (t.length - p) = lvl t (p - 1) := by
      rw [lvl_eq_get (by omega)]
      congr 1
      omega
    cases hg : t.get? (t.length - p) with
    | none => rfl
    | some c =>
      cases c with
      | none => rfl
      | some e => exact absurd (hidx.symm.trans hg) (h e)
  · rw [if_neg hc]

/-- `setLevel` on a held level rewrites that entry's end. -/
theorem setLevel_eq_set {p : Nat} {v : Int} {t : List (Option Entry)}
    {e : Entry} (hp : 1 ≤ p) (h : lvl t (p - 1) = some (some e)) :
    setLevel p v t = t.set (t.length - p)
      (some { e with stop := some v }) := by
  have hlen : p - 1 < t.length := lvl_lt h
  rw [setLevel, if_pos ⟨hp, by omega⟩]
  have hidx : t.get? (t.length - p) = some (some e) := by
    rw [← h, lvl_eq_get (by omega)]
    congr 1
    omega
  rw [hidx]

theorem length_set_stack {t : List (Option Entry)} {m : Nat}
    {x : Option Entry} : (t.set m x).length = t.length :=
  List.length_set t m x

/-- Setting level `p` (as `setLevel` addresses it) updates that level. -/
theorem lvl_set_at {p : Nat} {t : List (Option Entry)} {x : Option Entry}
    (hp : 1 ≤ p) (hl : p ≤ t.length) :
    lvl (t.set (t.length - p) x) (p - 1) = some x := by
  rw [lvl_eq_get (by rw [length_set_stack]; omega), length_set_stack]
  have : t.length - 1 - (p - 1) = t.length - p := by omega
  rw [this]
  have hlt : t.length - p < t.length := by omega
  rw [List.get?_set_eq, List.get?_eq_get hlt]
  rfl

/-- Setting one level leaves the others alone. -/
theorem lvl_set_ne {p i : Nat} {t : List (Option Entry)} {x : Option Entry}
    (hp : 1 ≤ p) (hl : p ≤ t.length) (hne : i ≠ p - 1) :
    lvl (t.set (t.length - p) x) i = lvl t i := by
  by_cases hi : i < t.length
  · rw [lvl_eq_get (by rw [length_set_stack]; omega), length_set_stack,
      lvl_eq_get hi]
    exact List.get?_set_ne _ _ (by omega)
  · rw [lvl_ge (by rw [length_set_stack]; omega), lvl_ge (by omega)]

/-- A `close` edge at priority 1 closes level 1. -/
theorem setLevel_safe1 {o2 o3 : Bool} {stk : List (Option Entry)} {v : Int}
    (hI : SafeInv true o2 o3 stk) : SafeInv false o2 o3 (setLevel 1 v stk) := by
  obtain ⟨hlen, _, hc2, hc3, hc4, hc5, hc6, hc7⟩ := hI
  by_cases hcell : ∃ e : Entry, lvl stk 0 = some (some e)
  · obtain ⟨e, he⟩ := hcell
    have hpl : 1 ≤ stk.length := by have := lvl_lt he; omega
    rw [setLevel_eq_set (e := e) (by omega) he]
    have hat : lvl (stk.set (stk.length - 1)
        (some { e with stop := some v })) 0 =
        some (some { e with stop := some v }) := by
      have h0 := lvl_set_at (p := 1) (t := stk)
        (x := some { e with stop := some v }) (by omega) hpl
      norm_num at h0
      exact h0
    have hne : ∀ i, i ≠ 0 → lvl (stk.set (stk.length - 1)
        (some { e with stop := some v })) i = lvl stk i := by
      intro i hi
      have h0 := lvl_set_ne (p := 1) (t := stk) (i := i)
        (x := some { e with stop := some v }) (by omega) hpl (by omega)
      norm_num at h0
      exact h0
    refine ⟨by rw [length_set_stack]; exact hlen, ?_, ?_, ?_, ?_, ?_, ?_, ?_⟩
    · intro _ e' he'
      rw [hat] at he'
      have : e' = { e with stop := some v } :=
        (Option.some.inj (Option.some.inj he')).symm
      rw [this]
      exact fun h => Option.noConfusion h
    · intro e' he'
      rw [hat] at he'
      have : e' = { e with stop := some v } :=
        (Option.some.inj (Option.some.inj he')).symm
      rw [this]
      exact hc2 e he
    · intro h e' he'
      rw [hne 1 (by omega)] at he'
      exact hc3 h e' he'
    · intro h
      obtain ⟨w, hw, h1, h2⟩ := hc4 h
      exact ⟨w, by rw [hne 1 (by omega)]; exact hw, h1, h2⟩
    · intro e' he'
      rw [hne 1 (by omega)] at he'
      exact hc5 e' he'
    · intro h e' he'
      rw [hne 2 (by omega)] at he'
      exact hc6 h e' he'
    · intro h
      obtain ⟨w, hw, h1⟩ := hc7 h
      exact ⟨w, by rw [hne 2 (by omega)]; exact hw, h1⟩
  · push_neg at hcell
    rw [setLevel_id (p := 1) hcell]
    exact ⟨hlen, fun _ e' he' => absurd he' (hcell e'), hc2, hc3, hc4, hc5,
      hc6, hc7⟩

/-- A `close` edge at priority 2 closes the open blanking level. -/
theorem setLevel_safe2 {o1 : Bool} {stk : List (Option Entry)} {v : Int}
    (hI : SafeInv o1 true false stk) :
    SafeInv o1 false false (setLevel 2 v stk) := by
  obtain ⟨hlen, hc1, hc2, _, hc4, hc5, hc6, _⟩ := hI
  obtain ⟨e2, he2, hst2, hsum2⟩ := hc4 rfl
  have hpl : 2 ≤ stk.length := by have := lvl_lt he2; omega
  rw [setLevel_eq_set (e := e2) (p := 2) (by omega) he2]
  have hat : lvl (stk.set (stk.length - 2)
      (some { e2 with stop := some v })) 1 =
      some (some { e2 with stop := some v }) := by
    have h0 := lvl_set_at (p := 2) (t := stk)
      (x := some { e2 with stop := some v }) (by omega) hpl
    norm_num at h0
    exact h0
  have hne : ∀ i, i ≠ 1 → lvl (stk.set (stk.length - 2)
      (some { e2 with stop := some v })) i = lvl stk i := by
    intro i hi
    have h0 := lvl_set_ne (p := 2) (t := stk) (i := i)
      (x := some { e2 with stop := some v }) (by omega) hpl (by omega)
    norm_num at h0
    exact h0
  refine ⟨by rw [length_set_stack]; exact hlen, ?_, ?_, ?_, ?_, ?_, ?_, ?_⟩
  · intro h e' he'
    rw [hne 0 (by omega)] at he'
    exact hc1 h e' he'
  · intro e' he'
    rw [hne 0 (by omega)] at he'
    exact hc2 e' he'
  · intro _ e' he'
    rw [hat] at he'
    have : e' = { e2 with stop := some v } :=
      (Option.some.inj (Option.some.inj he')).symm
    rw [this]
    exact fun h => Option.noConfusion h
  · intro h
    exact absurd h (by simp)
  · intro e' he'
    rw [hat] at he'
    have : e' = { e2 with stop := some v } :=
      (Option.some.inj (Option.some.inj he')).symm
    rw [this]
    exact hsum2
  · intro _ e' he'
    rw [hne 2 (by omega)] at he'
    exact hc6 rfl e' he'
  · intro h
    exact absurd h (by simp)

/-- A `close` edge at priority 3 closes the open override level. -/
theorem setLevel_safe3 {o1 : Bool} {stk : List (Option Entry)} {v : Int}
    (hI : SafeInv o1 true true stk) :
    SafeInv o1 true false (setLevel 3 v stk) := by
  obtain ⟨hlen, hc1, hc2, hc3, hc4, hc5, _, hc7⟩ := hI
  obtain ⟨e3, he3, hst3⟩ := hc7 rfl
  have hpl : 3 ≤ stk.length := by have := lvl_lt he3; omega
  rw [setLevel_eq_set (e := e3) (p := 3) (by omega) he3]
  have hat : lvl (stk.set (stk.length - 3)
      (some { e3 with stop := some v })) 2 =
      some (some { e3 with stop := some v }) := by
    have h0 := lvl_set_at (p := 3) (t := stk)
      (x := some { e3 with stop := some v }) (by omega) hpl
    norm_num at h0
    exact h0
  have hne : ∀ i, i ≠ 2 → lvl (stk.set (stk.length - 3)
      (some { e3 with stop := some v })) i = lvl stk i := by
    intro i hi
    have h0 := lvl_set_ne (p := 3) (t := stk) (i := i)
      (x := some { e3 with stop := some v }) (by omega) hpl (by omega)
    norm_num at h0
    exact h0
  refine ⟨by rw [length_set_stack]; exact hlen, ?_, ?_, ?_, ?_, ?_, ?_, ?_⟩
  · intro h e' he'
    rw [hne 0 (by omega)] at he'
    exact hc1 h e' he'
  · intro e' he'
    rw [hne 0 (by omega)] at he'
    exact hc2 e' he'
  · intro h
    exact absurd h (by simp)
  · intro _
    obtain ⟨w, hw, h1, h2⟩ := hc4 rfl
    exact ⟨w, by rw [hne 1 (by omega)]; exact hw, h1, h2⟩
  · intro e' he'
    rw [hne 1 (by omega)] at he'
    exact hc5 e' he'
  · intro _ e' he'
    rw [hat] at he'
    have : e' = { e3 with stop := some v } :=
      (Option.some.inj (Option.some.inj he')).symm
    rw [this]
    exact fun h => Option.noConfusion h
  · intro h
    exact absurd h (by simp)

theorem lvl1_0 {a : Option Entry} : lvl [a] 0 = some a := rfl

theorem lvl1_1 {a : Option Entry} : lvl [a] 1 = none := rfl

theorem lvl1_2 {a : Option Entry} : lvl [a] 2 = none := rfl

theorem lvl2_0 {a b : Option Entry} : lvl [a, b] 0 = some b := rfl

theorem lvl2_1 {a b : Option Entry} : lvl [a, b] 1 = some a := rfl

theorem lvl2_2 {a b : Option Entry} : lvl [a, b] 2 = none := rfl

theorem lvl3_0 {a b c : Option Entry} : lvl [a, b, c] 0 = some c := rfl

theorem lvl3_1 {a b c : Option Entry} : lvl [a, b, c] 1 = some b := rfl

theorem lvl3_2 {a b c : Option Entry} : lvl [a, b, c] 2 = some a := rfl

/-- The stack after pushing a fresh open entry at level 1. -/
theorem safeInv_single {z : Entry} (hz : z.summary ≠ "none") :
    SafeInv true false false [some z] := by
  refine ⟨by simp, ?_, ?_, ?_, ?_, ?_, ?_, ?_⟩
  · intro h
    exact absurd h (by simp)
  · intro e' he'
    rw [lvl1_0] at he'
    rw [← Option.some.inj (Option.some.inj he')]
    exact hz
  · intro _ e' he'
    rw [lvl1_1] at he'
    exact Option.noConfusion he'
  · intro h
    exact absurd h (by simp)
  · intro e' he'
    rw [lvl1_1] at he'
    exact Option.noConfusion he'
  · intro _ e' he'
    rw [lvl1_2] at he'
    exact Option.noConfusion he'
  · intro h
    exact absurd h (by simp)

/-- The stack after pushing a fresh open blanking entry at level 2 above a
level-1 cell `d` carrying the usual obligations. -/
theorem safeInv_push2 {o1 : Bool} {z : Entry} {d : Option Entry}
    (hz1 : z.stop = none) (hz2 : z.summary = "none")
    (hd1 : o1 = false → ∀ e : Entry, d = some e → e.stop ≠ none)
    (hd2 : ∀ e : Entry, d = some e → e.summary ≠ "none") :
    SafeInv o1 true false [some z, d] := by
  refine ⟨by simp, ?_, ?_, ?_, ?_, ?_, ?_, ?_⟩
  · intro h e' he'
    rw [lvl2_0] at he'
    exact hd1 h e' (Option.some.inj he')
  · intro e' he'
    rw [lvl2_0] at he'
    exact hd2 e' (Option.some.inj he')
  · intro h
    exact absurd h (by simp)
  · intro _
    exact ⟨z, lvl2_1, hz1, hz2⟩
  · intro e' he'
    rw [lvl2_1] at he'
    rw [← Option.some.inj (Option.some.inj he')]
    exact hz2
  · intro _ e' he'
    rw [lvl2_2] at he'
    exact Option.noConfusion he'
  · intro h
    exact absurd h (by simp)

/-- The stack after pushing a fresh open entry at level 3 above the open
blanking level and a level-1 cell `d`. -/
theorem safeInv_push3 {o1 : Bool} {z e2 : Entry} {d : Option Entry}
    (hz : z.stop = none)
    (h21 : e2.stop = none) (h22 : e2.summary = "none")
    (hd1 : o1 = false → ∀ e : Entry, d = some e → e.stop ≠ none)
    (hd2 : ∀ e : Entry, d = some e → e.summary ≠ "none") :
    SafeInv o1 true true [some z, some e2, d] := by
  refine ⟨by simp, ?_, ?_, ?_, ?_, ?_, ?_, ?_⟩
  · intro h e' he'
    rw [lvl3_0] at he'
    exact hd1 h e' (Option.some.inj he')
  · intro e' he'
    rw [lvl3_0] at he'
    exact hd2 e' (Option.some.inj he')
  · intro h
    exact absurd h (by simp)
  · intro _
    exact ⟨e2, lvl3_1, h21, h22⟩
  · intro e' he'
    rw [lvl3_1] at he'
    rw [← Option.some.inj (Option.some.inj he')]
    exact h22
  · intro h
    exact absurd h (by simp)
  · intro _
    exact ⟨z, lvl3_2, hz⟩

/-- Skipping an open edge under a still-active higher layer leaves the
suffix stack invariant-preserving, with the target level now flagged. -/
theorem safeInv_skip1 {o2 o3 : Bool} {stk stk1 : List (Option Entry)}
    (hI : SafeInv false o2 o3 stk) (hsuf : stk1 <:+ stk)
    (hsurv : ∀ j e, lvl stk j = some (some e) → e.stop = none →
      j < stk1.length)
    (h2 : 1 < stk1.length) : SafeInv true o2 o3 stk1 := by
  obtain ⟨hlen, _, hc2, hc3, hc4, hc5, hc6, hc7⟩ := hI
  refine ⟨le_trans hsuf.length_le hlen, ?_, ?_, ?_, ?_, ?_, ?_, ?_⟩
  · intro h
    exact absurd h (by simp)
  · intro e' he'
    rw [lvl_suffix hsuf (by omega)] at he'
    exact hc2 e' he'
  · intro h e' he'
    rw [lvl_suffix hsuf (by omega)] at he'
    exact hc3 h e' he'
  · intro h
    obtain ⟨w, hw, h1, hsum⟩ := hc4 h
    have := hsurv 1 w hw h1
    exact ⟨w, by rw [lvl_suffix hsuf (by omega)]; exact hw, h1, hsum⟩
  · intro e' he'
    rw [lvl_suffix hsuf (by omega)] at he'
    exact hc5 e' he'
  · intro h e' he'
    have hlt := lvl_lt he'
    rw [lvl_suffix hsuf (by omega)] at he'
    exact hc6 h e' he'
  · intro h
    obtain ⟨w, hw, h1⟩ := hc7 h
    have := hsurv 2 w hw h1
    exact ⟨w, by rw [lvl_suffix hsuf (by omega)]; exact hw, h1⟩

/-- An `open` edge at priority 1 never crashes and re-establishes the
invariant with level 1 flagged open. -/
theorem stepOpen_safe1 {A : Int} {E : Option Int} {t : String} {a now : Int}
    {stk : List (Option Entry)} {acc : List OutageEvent} {o2 o3 : Bool}
    (hI : SafeInv false o2 o3 stk) (ht : t ≠ "none") :
    match stepOpen A E 1 t a stk now acc with
    | .err _ => False
    | .halt _ => True
    | .cont st2 => SafeInv true o2 o3 st2.stack ∧ ∃ n, st2.now = some n := by
  have hwp := whilePop_safe (A := A) (E := E) (p := 1) stk now acc
  revert hwp
  cases hw : whilePop A E 1 stk now acc with
  | halt acc1 =>
    intro _
    rw [stepOpen_eq_halt hw]
    trivial
  | cont stk1 now1 acc1 =>
    intro hwp
    obtain ⟨hsuf, hstop, hsurv⟩ := hwp
    by_cases hskip : 1 < stk1.length
    · rw [stepOpen_eq_skip hw hskip]
      exact ⟨safeInv_skip1 hI hsuf hsurv hskip, now1, rfl⟩
    · have hlen1 : stk1.length ≤ 1 := by omega
      have ho2 : o2 = false := by
        cases o2 with
        | false => rfl
        | true =>
          obtain ⟨w, hw2, hwo, _⟩ := hI.2.2.2.2.1 rfl
          have := hsurv 1 w hw2 hwo
          omega
      have ho3 : o3 = false := by
        cases o3 with
        | false => rfl
        | true =>
          obtain ⟨w, hw2, hwo⟩ := hI.2.2.2.2.2.2.2 rfl
          have := hsurv 2 w hw2 hwo
          omega
      subst ho2
      subst ho3
      rcases stk1 with _ | ⟨c0, rest0⟩
      · rw [stepOpen_eq_empty hw]
        exact ⟨safeInv_single ht, now1, rfl⟩
      · rcases rest0 with _ | ⟨c1, rest1⟩
        · rcases c0 with _ | e
          · rw [stepOpen_eq_noneTop hw (by simp)]
            exact ⟨safeInv_single ht, now1, rfl⟩
          · have he0 : lvl stk 0 = some (some e) := by
              rw [← lvl_suffix hsuf (by simp)]
              exact lvl1_0
            have hsum : e.summary ≠ "none" := hI.2.2.1 e he0
            cases hen : e.stop with
            | none => exact absurd hen (hI.2.1 rfl e he0)
            | some en =>
              cases hb : ((!(decide (e.summary = t))) || decide (en < a)) with
              | true =>
                cases hhc : haltCheck E a with
                | true =>
                  rw [stepOpen_eq_pushHalt hw (by simp)
                    (by rw [hen]; exact hb) hhc]
                  trivial
                | false =>
                  rw [stepOpen_eq_push hw (by simp)
                    (by rw [hen]; exact hb) hhc]
                  exact ⟨safeInv_single ht, a, rfl⟩
              | false =>
                rw [stepOpen_eq_continue hw (by simp)
                  (by rw [hen]; exact hb) hen]
                exact ⟨safeInv_single hsum, now1, rfl⟩
        · simp only [List.length_cons] at hlen1
          omega

/-- The day-open blanking edge (priority 2, label `"none"`) never crashes
and leaves the blanking level flagged open. -/
theorem stepOpen_safe2 {A : Int} {E : Option Int} {a now : Int}
    {stk : List (Option Entry)} {acc : List OutageEvent} {o1 : Bool}
    (hI : SafeInv o1 false false stk) :
    match stepOpen A E 2 "none" a stk now acc with
    | .err _ => False
    | .halt _ => True
    | .cont st2 => SafeInv o1 true false st2.stack ∧ ∃ n, st2.now = some n := by
  have hwp := whilePop_safe (A := A) (E := E) (p := 2) stk now acc
  revert hwp
  cases hw : whilePop A E 2 stk now acc with
  | halt acc1 =>
    intro _
    rw [stepOpen_eq_halt hw]
    trivial
  | cont stk1 now1 acc1 =>
    intro hwp
    obtain ⟨hsuf, hstop, hsurv⟩ := hwp
    by_cases hskip : 2 < stk1.length
    · exfalso
      rcases hstop with h | ⟨e, tl, heq, hopen, hp⟩
      · omega
      · subst heq
        have hlen3 := hsuf.length_le
        have hmax := hI.1
        simp only [List.length_cons] at hskip hlen3
        have htl2 : tl.length = 2 := by omega
        have hlvl : lvl (some e :: tl) tl.length = some (some e) :=
          lvl_cons_self
        rw [htl2] at hlvl
        rw [lvl_suffix hsuf (by simp only [List.length_cons]; omega)] at hlvl
        exact hI.2.2.2.2.2.2.1 rfl e hlvl hopen
    · have hlen1 : stk1.length ≤ 2 := by omega
      rcases stk1 with _ | ⟨c0, rest0⟩
      · rw [stepOpen_eq_empty hw]
        exact ⟨safeInv_push2 rfl rfl (fun _ e h => Option.noConfusion h)
          (fun e h => Option.noConfusion h), now1, rfl⟩
      · rcases rest0 with _ | ⟨c1, rest1⟩
        · rcases c0 with _ | e
          · rw [stepOpen_eq_noneTop hw (by simp)]
            exact ⟨safeInv_push2 rfl rfl (fun _ e h => Option.noConfusion h)
              (fun e h => Option.noConfusion h), now1, rfl⟩
          · have he0 : lvl stk 0 = some (some e) := by
              rw [← lvl_suffix hsuf (by simp)]
              exact lvl1_0
            have hsum : e.summary ≠ "none" := hI.2.2.1 e he0
            have hcond : ((!(e.summary = "none")) ||
                (match e.stop with
                 | some en => decide (en < a)
                 | none => false)) = true := by
              rw [decide_eq_false hsum]
              simp
            cases hhc : haltCheck E a with
            | true =>
              rw [stepOpen_eq_pushHalt hw (by simp) hcond hhc]
              trivial
            | false =>
              rw [stepOpen_eq_push hw (by simp) hcond hhc]
              refine ⟨safeInv_push2 rfl rfl ?_ ?_, a, rfl⟩
              · intro h1 e' he'
                rw [← Option.some.inj he']
                exact hI.2.1 h1 e he0
              · intro e' he'
                rw [← Option.some.inj he']
                exact hsum
        · rcases rest1 with _ | ⟨c2, rest2⟩
          · have hl0 : lvl stk 0 = some c1 := by
              rw [← lvl_suffix hsuf (by simp)]
              exact lvl2_0
            have hd1 : o1 = false → ∀ e' : Entry, c1 = some e' →
                e'.stop ≠ none := by
              intro h1 e' he'
              rw [he'] at hl0
              exact hI.2.1 h1 e' hl0
            have hd2 : ∀ e' : Entry, c1 = some e' →
                e'.summary ≠ "none" := by
              intro e' he'
              rw [he'] at hl0
              exact hI.2.2.1 e' hl0
            rcases c0 with _ | e
            · rw [stepOpen_eq_noneTop hw (by simp)]
              exact ⟨safeInv_push2 rfl rfl hd1 hd2, now1, rfl⟩
            · have hl1 : lvl stk 1 = some (some e) := by
                rw [← lvl_suffix hsuf (by simp)]
                exact lvl2_1
              have hstop2 : e.stop ≠ none := hI.2.2.2.1 rfl e hl1
              have hsum2 : e.summary = "none" := hI.2.2.2.2.2.1 e hl1
              cases hen : e.stop with
              | none => exact absurd hen hstop2
              | some en =>
                cases hb : decide (en < a) with
                | true =>
                  cases hhc : haltCheck E a with
                  | true =>
                    rw [stepOpen_eq_pushHalt hw (by simp)
                      (by rw [decide_eq_true hsum2, hen]; exact hb) hhc]
                    trivial
                  | false =>
                    rw [stepOpen_eq_push hw (by simp)
                      (by rw [decide_eq_true hsum2, hen]; exact hb) hhc]
                    exact ⟨safeInv_push2 rfl rfl hd1 hd2, a, rfl⟩
                | false =>
                  rw [stepOpen_eq_continue hw (by simp)
                    (by rw [decide_eq_true hsum2, hen]; exact hb) hen]
                  exact ⟨safeInv_push2 rfl hsum2 hd1 hd2, now1, rfl⟩
          · simp only [List.length_cons] at hlen1
            omega

/-- An override-slot open edge (priority 3) during an open blanking day
never crashes and leaves the override level flagged open. -/
theorem stepOpen_safe3 {A : Int} {E : Option Int} {t : String} {a now : Int}
    {stk : List (Option Entry)} {acc : List OutageEvent} {o1 : Bool}
    (hI : SafeInv o1 true false stk) (ht : t ≠ "none") :
    match stepOpen A E 3 t a stk now acc with
    | .err _ => False
    | .halt _ => True
    | .cont st2 => SafeInv o1 true true st2.stack ∧ ∃ n, st2.now = some n := by
  have hres : whilePop A E 3 stk now acc = .cont stk now acc :=
    whilePop_stop hI.1
  obtain ⟨e2, he2, hst2, hsm2⟩ := hI.2.2.2.2.1 rfl
  have hne2 : e2.summary ≠ t := by
    rw [hsm2]
    exact fun h => ht h.symm
  have hlen2 : 1 < stk.length := lvl_lt he2
  rcases stk with _ | ⟨x, _ | ⟨y, _ | ⟨w, rest⟩⟩⟩
  · simp at hlen2
  · simp at hlen2
  · rw [lvl2_1] at he2
    obtain rfl : x = some e2 := Option.some.inj he2
    have hl0 : lvl [some e2, y] 0 = some y := lvl2_0
    rw [lvl_suffix (List.suffix_refl _) (by simp)] at hl0
    have hd1 : o1 = false → ∀ e' : Entry, y = some e' →
        e'.stop ≠ none := by
      intro h1 e' he'
      exact hI.2.1 h1 e' (hl0.trans (congrArg some he'))
    have hd2 : ∀ e' : Entry, y = some e' → e'.summary ≠ "none" := by
      intro e' he'
      exact hI.2.2.1 e' (hl0.trans (congrArg some he'))
    have hcond : ((!(e2.summary = t)) ||
        (match e2.stop with
         | some en => decide (en < a)
         | none => false)) = true := by
      rw [decide_eq_false hne2]
      simp
    cases hhc : haltCheck E a with
    | true =>
      rw [stepOpen_eq_pushHalt hres (by simp) hcond hhc]
      trivial
    | false =>
      rw [stepOpen_eq_push hres (by simp) hcond hhc]
      exact ⟨safeInv_push3 rfl hst2 hsm2 hd1 hd2, a, rfl⟩
  · have hrest : rest = [] := by
      have := hI.1
      simp only [List.length_cons] at this
      rcases rest with _ | ⟨_, _⟩
      · rfl
      · simp only [List.length_cons] at this
        omega
    subst hrest
    rw [lvl3_1] at he2
    obtain rfl : y = some e2 := Option.some.inj he2
    have hl0 : lvl [x, some e2, w] 0 = some w := lvl3_0
    have hd1 : o1 = false → ∀ e' : Entry, w = some e' →
        e'.stop ≠ none := by
      intro h1 e' he'
      exact hI.2.1 h1 e' (hl0.trans (congrArg some he'))
    have hd2 : ∀ e' : Entry, w = some e' → e'.summary ≠ "none" := by
      intro e' he'
      exact hI.2.2.1 e' (hl0.trans (congrArg some he'))
    rcases x with _ | e3
    · rw [stepOpen_eq_noneTop hres (by simp)]
      exact ⟨safeInv_push3 rfl hst2 hsm2 hd1 hd2, now, rfl⟩
    · have hl2 : lvl [some e3, some e2, w] 2 = some (some e3) := lvl3_2
      have hstop3 : e3.stop ≠ none := hI.2.2.2.2.2.2.1 rfl e3 hl2
      cases hen : e3.stop with
      | none => exact absurd hen hstop3
      | some en =>
        cases hb : ((!(decide (e3.summary = t))) || decide (en < a)) with
        | true =>
          cases hhc : haltCheck E a with
          | true =>
            rw [stepOpen_eq_pushHalt hres (by simp)
              (by rw [hen]; exact hb) hhc]
            trivial
          | false =>
            rw [stepOpen_eq_push hres (by simp)
              (by rw [hen]; exact hb) hhc]
            exact ⟨safeInv_push3 rfl hst2 hsm2 hd1 hd2, a, rfl⟩
        | false =>
          rw [stepOpen_eq_continue hres (by simp)
            (by rw [hen]; exact hb) hen]
          exact ⟨safeInv_push3 rfl hst2 hsm2 hd1 hd2, now, rfl⟩

/-- One step of the edge loop when the step raises. -/
theorem runEdges_cons_err {A : Int} {E : Option Int} {ed : Edge}
    {es : List Edge} {st : MState} {x : PyErr}
    (h : stepEdge A E st ed = .err x) :
    runEdges A E (ed :: es) st = .err x := by
  simp only [runEdges, h]

/-- Glue for the safety induction: a safe step followed by a safe rest. -/
theorem runEdges_glue {A : Int} {E : Option Int} {e : Edge} {es : List Edge}
    {st : MState} (P : MState → Prop)
    (hstep : match stepEdge A E st e with
             | .err _ => False
             | .halt _ => True
             | .cont st2 => P st2)
    (hrec : ∀ st2, P st2 →
        match runEdges A E es st2 with
        | .err _ => False
        | .halt _ => True
        | .cont st3 => SafeInv false false false st3.stack ∧
            (st3.now = none → st3.stack = [])) :
    match runEdges A E (e :: es) st with
    | .err _ => False
    | .halt _ => True
    | .cont st3 => SafeInv false false false st3.stack ∧
        (st3.now = none → st3.stack = []) := by
  revert hstep
  cases hs : stepEdge A E st e with
  | err x => intro h; exact h.elim
  | halt a =>
    intro _
    rw [runEdges_cons_halt hs]
    trivial
  | cont st2 =>
    intro hP
    rw [runEdges_cons_cont hs]
    exact hrec st2 hP

/-- Dispatch of one edge: an `open` edge runs the open handler. -/
theorem stepEdge_open_eq {A : Int} {E : Option Int} {st : MState} {e : Edge}
    {p : Nat} (hp : e.priority = p) (ha : e.action = .aopen) :
    stepEdge A E st e = stepOpen A E p e.type e.time st.stack
      (match st.now with | none => e.time | some n => n) st.acc := by
  obtain ⟨stk, nowo, acc⟩ := st
  cases nowo <;> simp only [stepEdge, ha, hp]

/-- Dispatch of one edge: a `close` edge stamps the level's end. -/
theorem stepEdge_close_eq {A : Int} {E : Option Int} {st : MState} {e : Edge}
    {p : Nat} (hp : e.priority = p) (ha : e.action = .aclose) :
    stepEdge A E st e = .cont ⟨setLevel p e.time st.stack,
      some (match st.now with | none => e.time | some n => n), st.acc⟩ := by
  obtain ⟨stk, nowo, acc⟩ := st
  cases nowo <;> simp only [stepEdge, ha, hp]

/-- Running a well-shaped merged stream from an invariant state never
raises, and a completed run re-establishes the all-closed invariant. -/
theorem streamOK_run {A : Int} {E : Option Int} :
    ∀ {o1 o2 o3 : Bool} {es : List Edge}, StreamOK o1 o2 o3 es →
      ∀ st : MState, SafeInv o1 o2 o3 st.stack →
        (st.now = none → st.stack = []) →
        match runEdges A E es st with
        | .err _ => False
        | .halt _ => True
        | .cont st2 => SafeInv false false false st2.stack ∧
            (st2.now = none → st2.stack = []) := by
  intro o1 o2 o3 es hok
  induction hok with
  | nil =>
    intro st hI hn
    exact ⟨hI, hn⟩
  | @open1 o2x o3x esx e hp ha ht _ ih =>
    intro st hI hn
    refine runEdges_glue
      (fun st2 => SafeInv true o2x o3x st2.stack ∧ ∃ n, st2.now = some n)
      ?_ ?_
    · rw [stepEdge_open_eq hp ha]
      exact stepOpen_safe1 hI ht
    · intro st2 h2
      obtain ⟨hI2, n2, hn2⟩ := h2
      exact ih st2 hI2 (fun h => Option.noConfusion (hn2.symm.trans h))
  | @close1 o2x o3x esx e hp ha _ ih =>
    intro st hI hn
    refine runEdges_glue
      (fun st2 => SafeInv false o2x o3x st2.stack ∧ ∃ n, st2.now = some n)
      ?_ ?_
    · rw [stepEdge_close_eq hp ha]
      exact ⟨setLevel_safe1 hI, _, rfl⟩
    · intro st2 h2
      obtain ⟨hI2, n2, hn2⟩ := h2
      exact ih st2 hI2 (fun h => Option.noConfusion (hn2.symm.trans h))
  | @open2 o1x esx e hp ha ht _ ih =>
    intro st hI hn
    refine runEdges_glue
      (fun st2 => SafeInv o1x true false st2.stack ∧ ∃ n, st2.now = some n)
      ?_ ?_
    · rw [stepEdge_open_eq hp ha, ht]
      exact stepOpen_safe2 hI
    · intro st2 h2
      obtain ⟨hI2, n2, hn2⟩ := h2
      exact ih st2 hI2 (fun h => Option.noConfusion (hn2.symm.trans h))
  | @close2 o1x esx e hp ha _ ih =>
    intro st hI hn
    refine runEdges_glue
      (fun st2 => SafeInv o1x false false st2.stack ∧ ∃ n, st2.now = some n)
      ?_ ?_
    · rw [stepEdge_close_eq hp ha]
      exact ⟨setLevel_safe2 hI, _, rfl⟩
    · intro st2 h2
      obtain ⟨hI2, n2, hn2⟩ := h2
      exact ih st2 hI2 (fun h => Option.noConfusion (hn2.symm.trans h))
  | @open3 o1x esx e hp ha ht _ ih =>
    intro st hI hn
    refine runEdges_glue
      (fun st2 => SafeInv o1x true true st2.stack ∧ ∃ n, st2.now = some n)
      ?_ ?_
    · rw [stepEdge_open_eq hp ha]
      exact stepOpen_safe3 hI ht
    · intro st2 h2
      obtain ⟨hI2, n2, hn2⟩ := h2
      exact ih st2 hI2 (fun h => Option.noConfusion (hn2.symm.trans h))
  | @close3 o1x esx e hp ha _ ih =>
    intro st hI hn
    refine runEdges_glue
      (fun st2 => SafeInv o1x true false st2.stack ∧ ∃ n, st2.now = some n)
      ?_ ?_
    · rw [stepEdge_close_eq hp ha]
      exact ⟨setLevel_safe3 hI, _, rfl⟩
    · intro st2 h2
      obtain ⟨hI2, n2, hn2⟩ := h2
      exact ih st2 hI2 (fun h => Option.noConfusion (hn2.symm.trans h))

/-- The drain loop succeeds when every surviving entry is closed. -/
theorem drainLoop_safe {A : Int} {E : Option Int} :
    ∀ (stk : List (Option Entry)) (now : Int) (acc : List OutageEvent),
      (∀ c ∈ stk, ∀ e : Entry, c = some e → e.stop ≠ none) →
      ∃ out, drainLoop A E stk now acc = .ok out := by
  intro stk
  induction stk with
  | nil =>
    intro now acc _
    exact ⟨acc, rfl⟩
  | cons hd tl ih =>
    intro now acc h
    have htl : ∀ c ∈ tl, ∀ e : Entry, c = some e → e.stop ≠ none :=
      fun c hc e he => h c (List.mem_cons_of_mem _ hc) e he
    rcases hd with _ | e
    · exact ih now acc htl
    · cases hen : e.stop with
      | none => exact absurd hen (h (some e) (List.mem_cons_self _ _) e rfl)
      | some en =>
        have hstep : drainLoop A E (some e :: tl) now acc =
            if en > now then
              (if haltCheck E en
               then .ok (if e.summary ≠ "none" ∧ en > A
                         then acc ++ [⟨e.summary, now, en⟩] else acc)
               else drainLoop A E tl en
                 (if e.summary ≠ "none" ∧ en > A
                  then acc ++ [⟨e.summary, now, en⟩] else acc))
            else drainLoop A E tl now acc := by
          simp only [drainLoop, hen]
        rw [hstep]
        by_cases hgt : en > now
        · rw [if_pos hgt]
          cases hhc : haltCheck E en with
          | true => exact ⟨_, rfl⟩
          | false => exact ih en _ htl
        · rw [if_neg hgt]
          exact ih now acc htl

/-- The drain after a completed run succeeds under the all-closed
invariant. -/
theorem drain_safe {A : Int} {E : Option Int} {st : MState}
    (hI : SafeInv false false false st.stack)
    (hn : st.now = none → st.stack = []) :
    ∃ out, drain A E st = .ok out := by
  obtain ⟨stk, nowo, acc⟩ := st
  rcases stk with _ | ⟨c, rest⟩
  · exact ⟨acc, rfl⟩
  · cases nowo with
    | none => exact absurd (hn rfl) (by simp)
    | some n =>
      have hall : ∀ cc ∈ (c :: rest), ∀ e : Entry, cc = some e →
          e.stop ≠ none := by
        intro cc hcc e hce
        obtain ⟨i, hi⟩ := List.get?_of_mem hcc
        have hlen : i < (c :: rest).length := by
          by_contra hx
          rw [List.get?_eq_none.mpr (by omega)] at hi
          exact Option.noConfusion hi
        have hlvl : lvl (c :: rest) ((c :: rest).length - 1 - i) = some cc := by
          rw [lvl_eq_get (by omega)]
          rw [show (c :: rest).length - 1 - ((c :: rest).length - 1 - i) = i
            by omega]
          exact hi
        rw [hce] at hlvl
        have h3 : (c :: rest).length ≤ 3 := hI.1
        have hj : (c :: rest).length - 1 - i = 0 ∨
            (c :: rest).length - 1 - i = 1 ∨
            (c :: rest).length - 1 - i = 2 := by omega
        rcases hj with hj | hj | hj
        · rw [hj] at hlvl
          exact hI.2.1 rfl e hlvl
        · rw [hj] at hlvl
          exact hI.2.2.2.1 rfl e hlvl
        · rw [hj] at hlvl
          exact hI.2.2.2.2.2.2.1 rfl e hlvl
      exact drainLoop_safe (c :: rest) n acc hall

/-- A well-shaped, error-free merged stream makes `gen_events` total. -/
theorem genEventsCore_safe {A : Int} {E : Option Int} {es : List Edge}
    (hok : StreamOK false false false es) :
    ∃ out, genEventsCore A E es none = .ok out := by
  have hinit : SafeInv false false false ([] : List (Option Entry)) :=
    ⟨by simp, fun _ e he => Option.noConfusion he,
     fun e he => Option.noConfusion he,
     fun _ e he => Option.noConfusion he,
     fun h => absurd h (by simp),
     fun e he => Option.noConfusion he,
     fun _ e he => Option.noConfusion he,
     fun h => absurd h (by simp)⟩
  have h := streamOK_run (A := A) (E := E) hok ⟨[], none, []⟩ hinit
    (fun _ => rfl)
  revert h
  cases hr : runEdges A E es ⟨[], none, []⟩ with
  | err x =>
    intro h
    exact h.elim
  | halt a =>
    intro _
    exact ⟨a, by simp only [genEventsCore, hr]⟩
  | cont st2 =>
    intro h2
    obtain ⟨hI2, hn2⟩ := h2
    obtain ⟨out, ho⟩ := drain_safe hI2 hn2
    refine ⟨out, ?_⟩
    simp only [genEventsCore, hr]
    exact ho

theorem interleave_nil_left : ∀ ys : List Edge, Interleave ys [] ys := by
  intro ys
  induction ys with
  | nil => exact Interleave.nil
  | cons y ys ih => exact Interleave.right y ih

theorem interleave_nil_right : ∀ xs : List Edge, Interleave xs xs [] := by
  intro xs
  induction xs with
  | nil => exact Interleave.nil
  | cons x xs ih => exact Interleave.left x ih

/-- Any order-preserving interleaving of an alternating priority-1 stream
and a well-shaped exception stream is a well-shaped merged stream. -/
theorem interleave_streamOK :
    ∀ {l a b : List Edge} {o1 o2 o3 : Bool}, Interleave l a b →
      Alt1 o1 a → P23 o2 o3 b → StreamOK o1 o2 o3 l := by
  intro l a b o1 o2 o3 hint
  induction hint generalizing o1 o2 o3 with
  | nil =>
    intro ha hb
    cases ha
    cases hb
    exact StreamOK.nil
  | left e _ ih =>
    intro ha hb
    cases ha with
    | aopen _ hp hact ht hrest =>
      exact StreamOK.open1 e hp hact ht (ih hrest hb)
    | aclose _ hp hact hrest =>
      exact StreamOK.close1 e hp hact (ih hrest hb)
  | right e _ ih =>
    intro ha hb
    cases hb with
    | open2 _ hp hact ht hrest =>
      exact StreamOK.open2 e hp hact ht (ih ha hrest)
    | close2 _ hp hact hrest =>
      exact StreamOK.close2 e hp hact (ih ha hrest)
    | open3 _ hp hact ht hrest =>
      exact StreamOK.open3 e hp hact ht (ih ha hrest)
    | close3 _ hp hact hrest =>
      exact StreamOK.close3 e hp hact (ih ha hrest)

/-- With enough fuel and no stream errors, the two-way merge produces an
order-preserving interleaving and no error. -/
theorem merge2Aux_interleave :
    ∀ (n : Nat) (xs ys : List Edge), xs.length + ys.length ≤ n →
      Interleave (merge2Aux n xs none ys none).1 xs ys ∧
      (merge2Aux n xs none ys none).2 = none := by
  intro n
  induction n with
  | zero =>
    intro xs ys h
    rcases xs with _ | ⟨x, xs⟩
    · rcases ys with _ | ⟨y, ys⟩
      · exact ⟨Interleave.nil, rfl⟩
      · simp at h
    · simp at h
  | succ n ih =>
    intro xs ys h
    rcases xs with _ | ⟨x, xs⟩
    · exact ⟨interleave_nil_left ys, rfl⟩
    · rcases ys with _ | ⟨y, ys⟩
      · exact ⟨interleave_nil_right (x :: xs), rfl⟩
      · cases hk : keyLE (edgeKey x) (edgeKey y) with
        | true =>
          rcases hm : merge2Aux n xs none (y :: ys) none with ⟨r, err⟩
          have hstep : merge2Aux (n + 1) (x :: xs) none (y :: ys) none =
              (x :: r, err) := by
            simp [merge2Aux, hk, hm]
          obtain ⟨hi, he⟩ := ih xs (y :: ys)
            (by simp only [List.length_cons] at h ⊢; omega)
          rw [hm] at hi he
          rw [hstep]
          exact ⟨Interleave.left x hi, he⟩
        | false =>
          rcases hm : merge2Aux n (x :: xs) none ys none with ⟨r, err⟩
          have hstep : merge2Aux (n + 1) (x :: xs) none (y :: ys) none =
              (y :: r, err) := by
            simp [merge2Aux, hk, hm]
          obtain ⟨hi, he⟩ := ih (x :: xs) ys
            (by simp only [List.length_cons] at h ⊢; omega)
          rw [hm] at hi he
          rw [hstep]
          exact ⟨Interleave.right y hi, he⟩

/-- A well-formed slot yields exactly its open/close edge pair. -/
theorem genSlotEdges_ok {p : Nat} {dt : Int} {s : Slot} (hs : SlotOK s) :
    genSlotEdges p dt s =
      ([⟨1440 * (dt / 1440) + s.start, p, .aopen, s.type⟩,
        ⟨1440 * (dt / 1440) + s.stop, p, .aclose, s.type⟩], none) := by
  obtain ⟨h1, h2, h3, h4, _⟩ := hs
  simp only [genSlotEdges, buildEventHour_ok h1 h2, buildEventHour_ok h3 h4]

/-- Well-formed priority-1 slots of one day produce an error-free stream of
alternating open/close pairs. -/
theorem genSlotsEdges_alt1 {dt : Int} :
    ∀ slots : List Slot, (∀ s ∈ slots, SlotOK s) →
      (genSlotsEdges 1 dt slots).2 = none ∧
      ∀ rest : List Edge, Alt1 false rest →
        Alt1 false ((genSlotsEdges 1 dt slots).1 ++ rest) := by
  intro slots
  induction slots with
  | nil =>
    intro _
    exact ⟨rfl, fun rest hr => by simpa using hr⟩
  | cons s slots ih =>
    intro h
    have hs := h s (List.mem_cons_self _ _)
    obtain ⟨htl2, htl⟩ := ih (fun x hx => h x (List.mem_cons_of_mem _ hx))
    rcases hg : genSlotsEdges 1 dt slots with ⟨es2, err2⟩
    rw [hg] at htl2 htl
    have hstep : genSlotsEdges 1 dt (s :: slots) =
        ([⟨1440 * (dt / 1440) + s.start, 1, .aopen, s.type⟩,
          ⟨1440 * (dt / 1440) + s.stop, 1, .aclose, s.type⟩] ++ es2,
         err2) := by
      simp only [genSlotsEdges, genSlotEdges_ok hs, hg]
    rw [hstep]
    refine ⟨htl2, ?_⟩
    intro rest hr
    rw [List.append_assoc]
    exact Alt1.aopen _ rfl rfl hs.2.2.2.2
      (Alt1.aclose _ rfl rfl (htl rest hr))

/-- Well-formed priority-3 slots of an exception day produce an error-free
alternating override stream inside the blanked day. -/
theorem genSlotsEdges_p23 {dt : Int} :
    ∀ slots : List Slot, (∀ s ∈ slots, SlotOK s) →
      (genSlotsEdges 3 dt slots).2 = none ∧
      ∀ rest : List Edge, P23 true false rest →
        P23 true false ((genSlotsEdges 3 dt slots).1 ++ rest) := by
  intro slots
  induction slots with
  | nil =>
    intro _
    exact ⟨rfl, fun rest hr => by simpa using hr⟩
  | cons s slots ih =>
    intro h
    have hs := h s (List.mem_cons_self _ _)
    obtain ⟨htl2, htl⟩ := ih (fun x hx => h x (List.mem_cons_of_mem _ hx))
    rcases hg : genSlotsEdges 3 dt slots with ⟨es2, err2⟩
    rw [hg] at htl2 htl
    have hstep : genSlotsEdges 3 dt (s :: slots) =
        ([⟨1440 * (dt / 1440) + s.start, 3, .aopen, s.type⟩,
          ⟨1440 * (dt / 1440) + s.stop, 3, .aclose, s.type⟩] ++ es2,
         err2) := by
      simp only [genSlotsEdges, genSlotEdges_ok hs, hg]
    rw [hstep]
    refine ⟨htl2, ?_⟩
    intro rest hr
    rw [List.append_assoc]
    exact P23.open3 _ rfl rfl hs.2.2.2.2
      (P23.close3 _ rfl rfl (htl rest hr))

/-- The truncated weekly loop over well-formed slots is error-free and
alternating. -/
theorem genWeekDaysAux_alt1 {gs : List (List Slot)}
    (h : ∀ day ∈ gs, ∀ s ∈ day, SlotOK s) :
    ∀ (n i : Nat) (anchor : Int),
      (genWeekDaysAux gs anchor i n).2 = none ∧
      Alt1 false (genWeekDaysAux gs anchor i n).1 := by
  intro n
  induction n with
  | zero =>
    intro i anchor
    exact ⟨rfl, Alt1.nil⟩
  | succ n ih =>
    intro i anchor
    have hgd : gs.getD (i % gs.length) [] =
        (gs.get? (i % gs.length)).getD [] := rfl
    have hday : ∀ s ∈ gs.getD (i % gs.length) [], SlotOK s := by
      intro s hs
      rcases hg : gs.get? (i % gs.length) with _ | day
      · rw [hgd, hg] at hs
        simp at hs
      · rw [hgd, hg] at hs
        simp only [Option.getD_some] at hs
        exact h day (List.get?_mem hg) s hs
    rcases hsl : genSlotsEdges 1 (anchor + 1440 * (i : Int))
        (gs.getD (i % gs.length) []) with ⟨es, err⟩
    obtain ⟨he0, hAlt⟩ := genSlotsEdges_alt1 _ hday
    rw [hsl] at he0 hAlt
    have herr : err = none := he0
    subst herr
    obtain ⟨he2, hAlt2⟩ := ih (i + 1) anchor
    rcases hg2 : genWeekDaysAux gs anchor (i + 1) n with ⟨es2, err2⟩
    rw [hg2] at he2 hAlt2
    have hstep : genWeekDaysAux gs anchor i (n + 1) = (es ++ es2, err2) := by
      simp only [genWeekDaysAux, hsl, hg2]
    rw [hstep]
    exact ⟨he2, hAlt es2 hAlt2⟩

/-- The weekly stream of a table of well-formed slots is error-free and
alternating. -/
theorem genScheduleRecurrentEvents_ok {api : YasnoOutagesApi} {A : Int}
    {fuel : Nat} (h : ∀ day ∈ getGroupSchedule api, ∀ s ∈ day, SlotOK s) :
    (genScheduleRecurrentEvents api A fuel).2 = none ∧
    Alt1 false (genScheduleRecurrentEvents api A fuel).1 := by
  cases hcb : (!truthyStr api.city || !truthyStr api.group) with
  | true =>
    have hstep : genScheduleRecurrentEvents api A fuel = ([], none) := by
      simp [genScheduleRecurrentEvents, hcb]
    rw [hstep]
    exact ⟨rfl, Alt1.nil⟩
  | false =>
    cases hgs : getGroupSchedule api with
    | nil =>
      have hstep : genScheduleRecurrentEvents api A fuel = ([], none) := by
        simp [genScheduleRecurrentEvents, hcb, hgs]
      rw [hstep]
      exact ⟨rfl, Alt1.nil⟩
    | cons d ds =>
      have hstep : genScheduleRecurrentEvents api A fuel =
          genWeekDaysAux (d :: ds) (anchorOf A) 0 fuel := by
        simp [genScheduleRecurrentEvents, hcb, hgs]
      rw [hstep]
      exact genWeekDaysAux_alt1 (hgs ▸ h) fuel 0 (anchorOf A)

/-- A well-formed exception record yields an error-free blanked day:
day-open, override pairs, day-close. -/
theorem genRecordEdges_ok {g : String} {baseD : Int} {r : ExRecord}
    (hr : RecordOK g r) :
    (genRecordEdges (some g) baseD r).2 = none ∧
    ∀ rest, P23 false false rest →
      P23 false false ((genRecordEdges (some g) baseD r).1 ++ rest) := by
  cases hsd : searchDate r.title with
  | none =>
    have hstep : genRecordEdges (some g) baseD r = ([], none) := by
      simp [genRecordEdges, hsd]
    rw [hstep]
    exact ⟨rfl, fun rest hr2 => by simpa using hr2⟩
  | some t =>
    obtain ⟨d, m, y⟩ := t
    obtain ⟨hv, slots, hsl, hallok⟩ := hr d m y hsd
    obtain ⟨mid, hmid⟩ : ∃ mid,
        buildEventHour (1440 * (daysFromCivil y m d : Int) + baseD % 1440) 0 =
          .ok mid :=
      ⟨_, buildEventHour_ok le_rfl (by omega)⟩
    obtain ⟨mid2, hmid2⟩ : ∃ mid2,
        buildEventHour (1440 * (daysFromCivil y m d : Int) + baseD % 1440)
          1440 = .ok mid2 :=
      ⟨_, buildEventHour_ok (by omega) le_rfl⟩
    rcases hse : genSlotsEdges 3
        (1440 * (daysFromCivil y m d : Int) + baseD % 1440) slots
      with ⟨es, err⟩
    obtain ⟨herr, hP⟩ := genSlotsEdges_p23 slots hallok
    rw [hse] at herr hP
    have herr' : err = none := herr
    subst herr'
    have hstep : genRecordEdges (some g) baseD r =
        (⟨mid, 2, .aopen, "none"⟩ ::
          (es ++ [⟨mid2, 2, .aclose, "none"⟩]), none) := by
      simp [genRecordEdges, hsd, hv, hmid, hsl, hse, hmid2]
    rw [hstep]
    refine ⟨rfl, ?_⟩
    intro rest hrest
    have hP2 := hP (⟨mid2, 2, .aclose, "none"⟩ :: rest)
      (P23.close2 _ rfl rfl hrest)
    rw [List.cons_append, List.append_assoc]
    exact P23.open2 _ rfl rfl rfl hP2

/-- A list of well-formed exception records yields an error-free
concatenation of blanked days. -/
theorem genRecordsEdges_ok {g : String} {baseD : Int} :
    ∀ recs : List ExRecord, (∀ r ∈ recs, RecordOK g r) →
      (genRecordsEdges (some g) baseD recs).2 = none ∧
      ∀ rest, P23 false false rest →
        P23 false false ((genRecordsEdges (some g) baseD recs).1 ++ rest) := by
  intro recs
  induction recs with
  | nil =>
    intro _
    exact ⟨rfl, fun rest hr2 => by simpa using hr2⟩
  | cons r recs ih =>
    intro h
    obtain ⟨h1e, h1P⟩ := @genRecordEdges_ok g baseD r
      (h r (List.mem_cons_self _ _))
    obtain ⟨h2e, h2P⟩ := ih (fun x hx => h x (List.mem_cons_of_mem _ hx))
    rcases hh : genRecordEdges (some g) baseD r with ⟨es1, err1⟩
    rw [hh] at h1e h1P
    have herr1 : err1 = none := h1e
    subst herr1
    rcases ht2 : genRecordsEdges (some g) baseD recs with ⟨es2, err2⟩
    rw [ht2] at h2e h2P
    have hstep : genRecordsEdges (some g) baseD (r :: recs) =
        (es1 ++ es2, err2) := by
      simp only [genRecordsEdges, hh, ht2]
    rw [hstep]
    refine ⟨h2e, ?_⟩
    intro rest hr2
    rw [List.append_assoc]
    exact h1P _ (h2P rest hr2)

/-- The exception stream of a well-keyed daily schedule is error-free and
well-shaped. -/
theorem genExceptionEvents_ok {api : YasnoOutagesApi} {A : Int}
    (h2 : ∀ d, api.daily = some d →
      ∃ c recs, api.city = some c ∧ assocGet c d = some recs ∧
        ∃ g, api.group = some g ∧
          ∀ r ∈ recs.map Prod.snd, RecordOK g r) :
    (genExceptionEvents api A).2 = none ∧
    P23 false false (genExceptionEvents api A).1 := by
  cases hd : api.daily with
  | none =>
    have hstep : genExceptionEvents api A = ([], none) := by
      simp [genExceptionEvents, hd]
    rw [hstep]
    exact ⟨rfl, P23.nil⟩
  | some d =>
    obtain ⟨c, recs, hc, ha, g, hg, hrec⟩ := h2 d hd
    have hstep : genExceptionEvents api A =
        genRecordsEdges (some g) A (recs.map (·.2)) := by
      simp [genExceptionEvents, hd, hc, ha, hg]
    rw [hstep]
    obtain ⟨he, hP⟩ := genRecordsEdges_ok (recs.map (·.2)) hrec
    refine ⟨he, ?_⟩
    have h0 := hP [] P23.nil
    simpa using h0

/-- Claim C2, corrected.  As stated the claim is false: an exception record
whose `groups` mapping lacks the configured group raises `KeyError`
(see the counterexample), as do a missing city key and an invalid parsed
date, so not every edge case is resolved by omission.  What holds is
crash-freedom on inputs whose dict accesses and dates are well-formed:
if every weekly slot of the configured group is a well-formed slot
(minutes within the day, label ≠ "none") and every daily-schedule record
reachable for the configured city/group parses to a valid date and carries
well-formed slots for that group, then `get_events` over any window
returns a list and raises nothing — in particular the stack machine's
`del new_last['end']` and the drain's `last["end"]` never hit a missing
key, for any interleaving the merge produces. -/
theorem c2_no_crash {api : YasnoOutagesApi} {A B : Int} {fuel : Nat}
    (hok : ApiOK api) :
    ∃ out, getEvents api A B fuel = .ok out := by
  obtain ⟨h1, h2⟩ := hok
  obtain ⟨hre, hAlt⟩ := @genScheduleRecurrentEvents_ok api A fuel h1
  obtain ⟨hxe, hP⟩ := genExceptionEvents_ok (A := A) h2
  rcases hR : genScheduleRecurrentEvents api A fuel with ⟨rs, re⟩
  rw [hR] at hre hAlt
  have hre' : re = none := hre
  subst hre'
  rcases hX : genExceptionEvents api A with ⟨xs, xe⟩
  rw [hX] at hxe hP
  have hxe' : xe = none := hxe
  subst hxe'
  have hms : mergedStream api A fuel = merge2 rs none xs none := by
    simp only [mergedStream, hR, hX]
  obtain ⟨hint, hmerr⟩ := merge2Aux_interleave (rs.length + xs.length) rs xs
    le_rfl
  have hok2 : StreamOK false false false (merge2 rs none xs none).1 :=
    interleave_streamOK hint hAlt hP
  have hget : getEvents api A B fuel =
      genEventsCore A (some B) (merge2 rs none xs none).1
        (merge2 rs none xs none).2 := by
    rw [show getEvents api A B fuel =
        genEventsCore A (some B) (mergedStream api A fuel).1
          (mergedStream api A fuel).2 from rfl, hms]
  rw [hget, show (merge2 rs none xs none).2 = none from hmerr]
  exact genEventsCore_safe hok2

/-- The override scenario is well-formed input for the crash-freedom
theorem. -/
theorem apiOverride_apiOK : ApiOK apiOverride := by
  constructor
  · decide
  · intro d hd
    simp only [apiOverride, Option.some.injEq] at hd
    subst hd
    refine ⟨"c", [("k", ⟨"1.1.1", [("g", [⟨0, 1440, "maintenance"⟩])]⟩)],
      rfl, rfl, "g", rfl, ?_⟩
    intro r hr
    simp only [List.map_cons, List.map_nil, List.mem_singleton] at hr
    subst hr
    intro dd mm yy h
    have h' : searchDate "1.1.1" = some (dd, mm, yy) := h
    rw [show searchDate "1.1.1" = some (1, 1, 1) from rfl] at h'
    simp only [Option.some.injEq, Prod.mk.injEq] at h'
    obtain ⟨rfl, rfl, rfl⟩ := h'
    exact ⟨by decide, [⟨0, 1440, "maintenance"⟩], rfl, by decide⟩

/-- Closed instance of the crash-freedom theorem on the override
scenario. -/
theorem c2_safety_witness :
    ApiOK apiOverride ∧
    ∃ out, getEvents apiOverride 0 2880 15 = .ok out :=
  ⟨apiOverride_apiOK, c2_no_crash apiOverride_apiOK⟩
